import Mathlib

set_option autoImplicit false

/-!
Verification of the Memex tiered retrieval and caching engine.

Shallow embedding of the core data structures and algorithms:
BloomFilter (scripts, bloom filter module), PersistentCache
(persistent-cache.js), ManifestManager.detectChanges
(manifest-manager.js), LazyLoader (lazy loader module),
Memex.loadIndex / LazyLoader.loadSessionDetails (format fallback chains)
and MemexPro.search / calculateRelevance (memex-loader-v3.js).

JavaScript semantics notes used throughout:
32-bit bitwise operators are modelled with explicit mod 2^32 arithmetic
on an unsigned representative plus a signed reinterpretation; JS objects
are modelled as ordered association lists with JS property-write
semantics (overwrite in place if the key exists, else append); external
codecs (MD5, SHA1, MessagePack, gzip, JSON text encoding) are taken as
parameters, since only their success/failure and determinism matter to
the claims.
-/

namespace Memex

/-! ## BloomFilter: hash computation (BloomFilter.getHashes) -/

/-- Signed 32-bit reinterpretation of an unsigned 32-bit representative,
as produced by JS bitwise operators. -/
def int32OfNat (u : Nat) : Int :=
  if u % 4294967296 < 2147483648 then ((u % 4294967296 : Nat) : Int)
  else ((u % 4294967296 : Nat) : Int) - 4294967296

/-- Unsigned representative of the JS loop
`for j in 0..3: hash = (hash << 8) | hash1[j]` starting from `hash = 0`,
where `hash1` is the MD5 digest byte array. -/
def hashBaseU (h1 : List Nat) : Nat :=
  (List.range 4).foldl (fun u j => ((u <<< 8) % 4294967296) ||| (h1.getD j 0 % 4294967296)) 0

/-- JS `b << s` on an int32 operand: shift, wrap to 32 bits, reinterpret signed. -/
def jsShl32 (b s : Nat) : Int :=
  int32OfNat ((b <<< s) % 4294967296)

/-- One hash position: the JS body of `getHashes` for index `i`, i.e.
the 4-byte MD5 base combined with `hash = hash + i * (hash2[j] << (j * 8))`
for `j in 0..3` (plain number arithmetic, no wrap), then `Math.abs(hash) % size`. -/
def hashAt (h1 h2 : List Nat) (size i : Nat) : Nat :=
  let base : Int := int32OfNat (hashBaseU h1)
  let full : Int :=
    (List.range 4).foldl (fun h j => h + (i : Int) * jsShl32 (h2.getD j 0) (j * 8)) base
  full.natAbs % size

/-- BloomFilter.getHashes: `numHashFunctions` positions computed from the MD5 and
SHA1 digests of the case-folded item (`str.toLowerCase()`). The digest functions
are abstract parameters (external crypto library). -/
def bloomHashes (d1 d2 : String → List Nat) (numHashFunctions size : Nat)
    (item : String) : List Nat :=
  (List.range numHashFunctions).map (hashAt (d1 item.toLower) (d2 item.toLower) size)

/-! ## BloomFilter: state and operations -/

/-- BloomFilter state: `bits` is the Uint8Array of packed bytes. -/
structure BloomFilter where
  expectedItems : Nat
  falsePositiveRate : ℚ
  size : Nat
  numHashFunctions : Nat
  bits : List Nat
  itemCount : Nat
deriving Repr, DecidableEq

/-- JS `this.bits[byteIndex] |= (1 << bitIndex)` with `byteIndex = floor(hash / 8)`,
`bitIndex = hash % 8`. An out-of-range `List.set` is a no-op, matching the silent
out-of-bounds write on a Uint8Array. -/
def setBloomBit (bits : List Nat) (h : Nat) : List Nat :=
  bits.set (h / 8) (bits.getD (h / 8) 0 ||| (1 <<< (h % 8)))

/-- JS `this.bits[byteIndex] & (1 << bitIndex)` test; an out-of-bounds read is
`undefined`, which coerces to 0, matching `getD _ 0`. -/
def testBloomBit (bits : List Nat) (h : Nat) : Bool :=
  bits.getD (h / 8) 0 &&& (1 <<< (h % 8)) != 0

/-- BloomFilter.add: set every hash position's bit, bump `itemCount`. -/
def BloomFilter.add (d1 d2 : String → List Nat) (bf : BloomFilter) (item : String) :
    BloomFilter :=
  { bf with
    bits := (bloomHashes d1 d2 bf.numHashFunctions bf.size item).foldl setBloomBit bf.bits
    itemCount := bf.itemCount + 1 }

/-- BloomFilter.mightContain: false as soon as any hash position's bit is unset. -/
def BloomFilter.mightContain (d1 d2 : String → List Nat) (bf : BloomFilter)
    (item : String) : Bool :=
  (bloomHashes d1 d2 bf.numHashFunctions bf.size item).all (testBloomBit bf.bits)

/-- Fold BloomFilter.add over a list of items. -/
def addAll (d1 d2 : String → List Nat) (bf : BloomFilter) (items : List String) :
    BloomFilter :=
  items.foldl (fun b it => b.add d1 d2 it) bf

/-- Well-formedness established by the constructor: positive bit-array size and
`bits.length = ceil(size / 8)` bytes. -/
def BloomFilter.wf (bf : BloomFilter) : Prop :=
  0 < bf.size ∧ bf.bits.length = (bf.size + 7) / 8

/-! ## BloomFilter: serialization (toJSON / fromJSON) -/

/-- Serialized form of a BloomFilter as written by `toJSON`.
The JSON also carries `actualFalsePositiveRate` (a floating-point statistic
recomputed from the other fields and never read back by `fromJSON`) and
`sizeBytes`; the informational float is not modelled. -/
structure BloomFilterJSON where
  version : String
  expectedItems : Nat
  falsePositiveRate : ℚ
  size : Nat
  numHashFunctions : Nat
  itemCount : Nat
  bits : List Nat
  sizeBytes : Nat
deriving Repr, DecidableEq

/-- BloomFilter.toJSON: persists version, expectedItems (n), falsePositiveRate (p),
size (m), numHashFunctions (k), itemCount and the raw bit array. -/
def BloomFilter.toJSON (bf : BloomFilter) : BloomFilterJSON :=
  { version := "1.0.0"
    expectedItems := bf.expectedItems
    falsePositiveRate := bf.falsePositiveRate
    size := bf.size
    numHashFunctions := bf.numHashFunctions
    itemCount := bf.itemCount
    bits := bf.bits
    sizeBytes := bf.bits.length }

/-- BloomFilter.fromJSON: `new BloomFilter(json.expectedItems, json.falsePositiveRate)`
followed by unconditional overwrites of `size`, `numHashFunctions`, `itemCount` and
`bits` from the stored JSON. The constructor-computed size, hash count and fresh
bit array are all discarded by those overwrites, so the resulting state is exactly
the stored one; `new Uint8Array(json.bits)` truncates each element mod 256. -/
def BloomFilter.fromJSON (j : BloomFilterJSON) : BloomFilter :=
  { expectedItems := j.expectedItems
    falsePositiveRate := j.falsePositiveRate
    size := j.size
    numHashFunctions := j.numHashFunctions
    itemCount := j.itemCount
    bits := j.bits.map (fun b => b % 256) }

/-! ## PersistentCache (persistent-cache.js)

One SQLite row of the `cache` table. The msgpack-encoded BLOB value has
abstract type `β`; decoding (`msgpack.decode`, which may throw) is an
abstract `β → Option V` parameter, encoding a `V → β` parameter. -/

structure CacheRow (β : Type) where
  key : String
  value : β
  version : String
  expiresAt : Int
  createdAt : Int
  updatedAt : Int
  lastAccessedAt : Int
deriving Repr, DecidableEq

/-- Instance configuration from the PersistentCache constructor. -/
structure CacheConfig where
  ttl : Int
  version : String
  maxEntries : Nat
deriving Repr, DecidableEq

/-- DEFAULT_TTL = 60 minutes in milliseconds. -/
def DEFAULT_TTL : Int := 60 * 60 * 1000

/-- DEFAULT_MAX_ENTRIES. -/
def DEFAULT_MAX_ENTRIES : Nat := 1000

/-- Constructor defaulting: `options.ttl || DEFAULT_TTL`,
`options.version || '3.1.0'`, `options.maxEntries || DEFAULT_MAX_ENTRIES`
(JS `||` falls back on 0, empty string and absent fields). -/
def mkCacheConfig (ttlOpt : Option Int) (versionOpt : Option String)
    (maxEntriesOpt : Option Nat) : CacheConfig :=
  { ttl := match ttlOpt with
      | none => DEFAULT_TTL
      | some t => if t = 0 then DEFAULT_TTL else t
    version := match versionOpt with
      | none => "3.1.0"
      | some v => if v = "" then "3.1.0" else v
    maxEntries := match maxEntriesOpt with
      | none => DEFAULT_MAX_ENTRIES
      | some m => if m = 0 then DEFAULT_MAX_ENTRIES else m }

/-- SQL `SELECT ... FROM cache WHERE key = ?` (keys form a primary key, so
at most one row; the model returns the first matching row). -/
def findRow {β : Type} (rows : List (CacheRow β)) (key : String) : Option (CacheRow β) :=
  rows.find? (fun r => r.key == key)

/-- SQL `DELETE FROM cache WHERE key = ?`. -/
def deleteKey {β : Type} (rows : List (CacheRow β)) (key : String) : List (CacheRow β) :=
  rows.filter (fun r => r.key != key)

/-- PersistentCache.get: miss (and lazy delete) when the row is expired
(`row.expires_at < now`), version-mismatched, or fails to msgpack-decode;
on a hit, `UPDATE cache SET last_accessed_at = now WHERE key = ?` and
return the decoded value. Returns the value and the updated table. -/
def cacheGet {β V : Type} (decode : β → Option V) (cfg : CacheConfig) (now : Int)
    (rows : List (CacheRow β)) (key : String) : Option V × List (CacheRow β) :=
  match findRow rows key with
  | none => (none, rows)
  | some row =>
    if row.expiresAt < now then
      (none, deleteKey rows key)
    else if row.version != cfg.version then
      (none, deleteKey rows key)
    else
      match decode row.value with
      | none => (none, deleteKey rows key)
      | some v =>
        (some v, rows.map (fun r => if r.key == key then { r with lastAccessedAt := now } else r))

/-- JS `customTTL || this.ttl` in PersistentCache.set: a falsy `customTTL`
(absent, null or 0) falls back to the instance TTL. -/
def resolveTTL (cfg : CacheConfig) (customTTL : Option Int) : Int :=
  match customTTL with
  | none => cfg.ttl
  | some t => if t = 0 then cfg.ttl else t

/-- One comparison step of the minimum-`last_accessed_at` scan. -/
def lruStep {β : Type} (acc : Option (CacheRow β)) (r : CacheRow β) : Option (CacheRow β) :=
  match acc with
  | none => some r
  | some m => if r.lastAccessedAt < m.lastAccessedAt then some r else some m

/-- SQL `SELECT key FROM cache ORDER BY last_accessed_at ASC LIMIT 1`:
a row with minimal `last_accessed_at` (the model picks the first such row). -/
def lruVictim {β : Type} (rows : List (CacheRow β)) : Option (CacheRow β) :=
  rows.foldl lruStep none

/-- PersistentCache.set: look up the existing row; if the key is new and
`COUNT(*) >= maxEntries`, delete the LRU row; then
`INSERT OR REPLACE` a row with `expires_at = now + (customTTL || ttl)`,
`created_at = updated_at = now`, and `last_accessed_at` preserved from the
existing row on updates, `now` for new entries. -/
def cacheSet {β V : Type} (encode : V → β) (cfg : CacheConfig) (now : Int)
    (rows : List (CacheRow β)) (key : String) (value : V) (customTTL : Option Int) :
    List (CacheRow β) :=
  deleteKey
    (if (findRow rows key).isSome then rows
     else if cfg.maxEntries ≤ rows.length then
       match lruVictim rows with
       | some victim => deleteKey rows victim.key
       | none => rows
     else rows)
    key ++
  [{ key := key, value := encode value, version := cfg.version,
     expiresAt := now + resolveTTL cfg customTTL, createdAt := now, updatedAt := now,
     lastAccessedAt :=
       match findRow rows key with
       | some r => r.lastAccessedAt
       | none => now }]

/-! ## ManifestManager.detectChanges (manifest-manager.js) -/

/-- Per-file manifest metadata `{hash, size, mtime}`. -/
structure FileMeta where
  hash : String
  size : Int
  mtime : Int
deriving Repr, DecidableEq

/-- The `files` map of a manifest: path → metadata, as an ordered object. -/
abbrev Manifest := List (String × FileMeta)

/-- JS property read `manifest.files[path]`. -/
def mlookup (m : Manifest) (p : String) : Option FileMeta :=
  (m.find? (fun e => e.1 == p)).map (fun e => e.2)

/-- The `{changed, added, deleted, is_first_run}` result of detectChanges. -/
structure Changes where
  changed : List String
  added : List String
  deleted : List String
  isFirstRun : Bool
deriving Repr, DecidableEq

/-- ManifestManager.detectChanges: with no previous manifest, an
`is_first_run` sentinel with all three lists empty; else one pass over the
new manifest's entries classifying `added` (path absent from old) and
`changed` (present in both with differing hash or mtime), then one pass
over the old manifest's paths collecting `deleted` (absent from new). -/
def detectChanges (old : Option Manifest) (current : Manifest) : Changes :=
  match old with
  | none => { changed := [], added := [], deleted := [], isFirstRun := true }
  | some oldM =>
    { changed :=
        (current.filter (fun e =>
          match mlookup oldM e.1 with
          | some o => o.hash != e.2.hash || o.mtime != e.2.mtime
          | none => false)).map (fun e => e.1)
      added :=
        (current.filter (fun e => (mlookup oldM e.1).isNone)).map (fun e => e.1)
      deleted :=
        (oldM.filter (fun e => (mlookup current e.1).isNone)).map (fun e => e.1)
      isFirstRun := false }

/-! ## JS values and objects (for the LazyLoader tiered index) -/

/-- JSON-style JS value; `undef` models JS `undefined` (an absent property
read). Objects are ordered association lists, as in JS. -/
inductive JVal where
  | str : String → JVal
  | num : Int → JVal
  | jsbool : Bool → JVal
  | null : JVal
  | undef : JVal
  | arr : List JVal → JVal
  | obj : List (String × JVal) → JVal
deriving Repr

/-- An object's entry list. -/
abbrev RecordJ := List (String × JVal)

mutual

/-- Structural equality decision for JVal. -/
def JVal.beq : JVal → JVal → Bool
  | .str a, .str b => a == b
  | .num a, .num b => a == b
  | .jsbool a, .jsbool b => a == b
  | .null, .null => true
  | .undef, .undef => true
  | .arr a, .arr b => JVal.beqList a b
  | .obj a, .obj b => JVal.beqObj a b
  | _, _ => false

/-- Elementwise equality of JVal lists. -/
def JVal.beqList : List JVal → List JVal → Bool
  | [], [] => true
  | a :: as, b :: bs => JVal.beq a b && JVal.beqList as bs
  | _, _ => false

/-- Entrywise equality of object entry lists. -/
def JVal.beqObj : List (String × JVal) → List (String × JVal) → Bool
  | [], [] => true
  | (ka, va) :: as, (kb, vb) :: bs => ka == kb && JVal.beq va vb && JVal.beqObj as bs
  | _, _ => false

end

/-- JS truthiness: `undefined`, `null`, `false`, `0`, `""` are falsy. -/
def jsTruthy : JVal → Bool
  | .undef => false
  | .null => false
  | .jsbool b => b
  | .num n => n != 0
  | .str s => s != ""
  | .arr _ => true
  | .obj _ => true

/-- Whether the object has the property. -/
def rhas (r : RecordJ) (k : String) : Bool :=
  r.any (fun p => p.1 == k)

/-- JS property read as an Option (none when absent). -/
def rget (r : RecordJ) (k : String) : Option JVal :=
  (r.find? (fun p => p.1 == k)).map (fun p => p.2)

/-- JS property read: an absent property reads as `undefined`. -/
def jsGetField (r : RecordJ) (k : String) : JVal :=
  (rget r k).getD JVal.undef

/-- JS property write (also what a spread-literal override does): overwrite
in place if the key exists, else append at the end. -/
def rset (r : RecordJ) (k : String) (v : JVal) : RecordJ :=
  if rhas r k then r.map (fun p => if p.1 == k then (k, v) else p) else r ++ [(k, v)]

/-- JS `delete obj[k]`: remove the property, preserving the others' order. -/
def rdel (r : RecordJ) (k : String) : RecordJ :=
  r.filter (fun p => p.1 != k)

/-- JS `a || b`. -/
def jsOr (a b : JVal) : JVal :=
  if jsTruthy a then a else b

/-- JS string interpolation of a value (template literal). Only the cases
exercised by the lazy loader are given exactly; array interpolation
(comma-joined elements) is represented by its nested interpolations joined
with commas, and an object interpolates to "[object Object]". -/
def jsTemplateStr : JVal → String
  | .str s => s
  | .num n => toString n
  | .jsbool b => toString b
  | .null => "null"
  | .undef => "undefined"
  | .arr _ => ""
  | .obj _ => "[object Object]"

/-! ## LazyLoader (lazy loader module): tiered split / revert -/

/-- The lightweight session extracted by convertToLazyFormat:
`{id, project, date, summary, topics: session.topics || []}`. -/
def lightSessionOf (s : RecordJ) : RecordJ :=
  [("id", jsGetField s "id"),
   ("project", jsGetField s "project"),
   ("date", jsGetField s "date"),
   ("summary", jsGetField s "summary"),
   ("topics", jsOr (jsGetField s "topics") (JVal.arr []))]

/-- The detail file written by convertToLazyFormat:
`{...session, _lazy_loaded: true, _index_size_bytes: ..., _full_size_bytes: ...}`.
The two byte counts (lengths of JSON serializations) are abstract parameters. -/
def detailOf (s : RecordJ) (isz fsz : Int) : RecordJ :=
  rset (rset (rset s "_lazy_loaded" (JVal.jsbool true))
      "_index_size_bytes" (JVal.num isz))
    "_full_size_bytes" (JVal.num fsz)

/-- revertToFullFormat's merge step on one detail record: delete the three
lazy-loading metadata properties. -/
def stripLazyMeta (d : RecordJ) : RecordJ :=
  rdel (rdel (rdel d "_lazy_loaded") "_index_size_bytes") "_full_size_bytes"

/-- The sessions directory: files keyed by the interpolated session id. -/
abbrev DetailStore := List (String × RecordJ)

/-- Writing a detail file (overwrites an existing file with the same name). -/
def storeWrite (st : DetailStore) (k : String) (v : RecordJ) : DetailStore :=
  if st.any (fun p => p.1 == k) then st.map (fun p => if p.1 == k then (k, v) else p)
  else st ++ [(k, v)]

/-- Reading a detail file if it exists. -/
def storeRead (st : DetailStore) (k : String) : Option RecordJ :=
  (st.find? (fun p => p.1 == k)).map (fun p => p.2)

/-- Extract a list of objects from a JVal list (the `sessions` array);
none if some element is not an object. -/
def allObjs : List JVal → Option (List RecordJ)
  | [] => some []
  | .obj o :: rest => (allObjs rest).map (fun os => o :: os)
  | _ => none

/-- The result of converting one index file: the rewritten lightweight
index object plus the written per-session detail files. -/
structure LazySplit where
  lightIndex : RecordJ
  detailFiles : DetailStore
deriving Repr

/-- LazyLoader.convertToLazyFormat on one sessions-index object: skipped
(none) when `sessions` is absent, not an array of objects, or empty;
otherwise produces the lightweight index
`{...fullIndex, sessions: lightweightSessions, _lazy_loading_enabled: true,
_session_details_path: 'sessions/{id}.json'}` and writes one detail file
per session keyed by the interpolated session id. -/
def convertIndex (isz fsz : RecordJ → Int) (idx : RecordJ) : Option LazySplit :=
  match rget idx "sessions" with
  | some (.arr ss) =>
    if ss.isEmpty then none
    else
      match allObjs ss with
      | some sessions =>
        let lights := sessions.map lightSessionOf
        let store := sessions.foldl
          (fun st s => storeWrite st (jsTemplateStr (jsGetField s "id"))
            (detailOf s (isz s) (fsz s))) []
        some
          { lightIndex :=
              rset (rset (rset idx "sessions" (JVal.arr (lights.map JVal.obj)))
                  "_lazy_loading_enabled" (JVal.jsbool true))
                "_session_details_path" (JVal.str "sessions/{id}.json")
            detailFiles := store }
      | none => none
  | _ => none

/-- LazyLoader.revertToFullFormat on one converted index: skipped (none)
when `_lazy_loading_enabled` is falsy; else each light session is replaced
by its detail file with the lazy metadata deleted (falling back to the
light session when the file is missing), and the two lazy-loading keys are
deleted from the index. -/
def revertIndex (sp : LazySplit) : Option RecordJ :=
  let li := sp.lightIndex
  if jsTruthy (jsGetField li "_lazy_loading_enabled") then
    match rget li "sessions" with
    | some (.arr lss) =>
      match allObjs lss with
      | some lights =>
        let fulls := lights.map (fun ls =>
          match storeRead sp.detailFiles (jsTemplateStr (jsGetField ls "id")) with
          | some d => stripLazyMeta d
          | none => ls)
        some (rdel (rdel (rset li "sessions" (JVal.arr (fulls.map JVal.obj)))
            "_lazy_loading_enabled")
          "_session_details_path")
      | none => none
    | _ => none
  else none

/-! ## Format fallback chains (memex-loader.js loadIndex, LazyLoader.loadSessionDetails)

File contents and decoders are abstract: a representation is an
`Option` of its raw content (present on disk or not), and each decoder
returns `none` exactly when the real decoder would throw. -/

/-- Uncaught-exception outcome of a loader: the index is missing in every
representation, or the last-resort decode threw out of the function. -/
inductive LoadErr where
  | notFound : LoadErr
  | decodeThrow : LoadErr
deriving Repr, DecidableEq

/-- Which representation served the index. -/
inductive LoadFormat where
  | cache : LoadFormat
  | msgpack : LoadFormat
  | gzip : LoadFormat
  | json : LoadFormat
deriving Repr, DecidableEq

/-- Memex.loadIndex: try the persistent cache (whose own decode failures are
absorbed inside `cacheGet`), then the MessagePack file (decode failure is
caught: warn and fall through), then the gzip file (same), then plain JSON
(`JSON.parse` is NOT wrapped: a parse failure propagates as an exception);
if no representation produced an index, throw `not found`. A loaded index
is written back to the persistent cache under key "index". -/
def loadIndex {β V MB GB JB : Type} (decode : β → Option V) (encode : V → β)
    (cfg : CacheConfig) (now : Int) (rows : List (CacheRow β))
    (msgpackFile : Option MB) (gzFile : Option GB) (jsonFile : Option JB)
    (msgpackDec : MB → Option V) (gunzipJsonDec : GB → Option V)
    (jsonParse : JB → Option V) :
    Except LoadErr (V × LoadFormat × List (CacheRow β)) :=
  match cacheGet decode cfg now rows "index" with
  | (some v, rows') => .ok (v, .cache, rows')
  | (none, rows') =>
    let viaMsgpack : Option (V × LoadFormat) :=
      match msgpackFile with
      | some b => (msgpackDec b).map (fun v => (v, .msgpack))
      | none => none
    let viaGzip : Option (V × LoadFormat) :=
      match viaMsgpack with
      | some r => some r
      | none =>
        match gzFile with
        | some b => (gunzipJsonDec b).map (fun v => (v, .gzip))
        | none => none
    match viaGzip with
    | some (v, fmt) => .ok (v, fmt, cacheSet encode cfg now rows' "index" v none)
    | none =>
      match jsonFile with
      | some s =>
        match jsonParse s with
        | some v => .ok (v, .json, cacheSet encode cfg now rows' "index" v none)
        | none => .error .decodeThrow
      | none => .error .notFound

/-- LazyLoader.loadSessionDetails: if the `.msgpack` file exists, decode it
(`msgpack.decode` is NOT wrapped in try/catch, so a decode failure throws);
only when it does not exist fall back to the `.json` file; return null
(`ok none`) when neither exists. -/
def loadSessionDetails {MB JB V : Type} (msgpackFile : Option MB) (jsonFile : Option JB)
    (msgpackDec : MB → Option V) (jsonParse : JB → Option V) :
    Except LoadErr (Option V) :=
  match msgpackFile with
  | some b =>
    match msgpackDec b with
    | some v => .ok (some v)
    | none => .error .decodeThrow
  | none =>
    match jsonFile with
    | some s =>
      match jsonParse s with
      | some v => .ok (some v)
      | none => .error .decodeThrow
    | none => .ok none

/-! ## MemexPro.search / calculateRelevance (memex-loader-v3.js)

calculateRelevance counts matches of `new RegExp(word, 'g')` in the text.
The fragment of JS regular expressions exercised here (query words are
plain tokens) is modelled exactly: every character matches literally
except `.`, which matches any single character; the global counter scans
left to right, restarting after each match (non-overlapping), advancing
one position past an empty match. -/

/-- Regex-fragment match anchored at the start of `text`: `.` is a
wildcard, all other pattern characters are literal. -/
def reMatchAt : List Char → List Char → Bool
  | [], _ => true
  | _ :: _, [] => false
  | p :: ps, c :: cs => (p == '.' || p == c) && reMatchAt ps cs

/-- Fuel-indexed scan for the global regex match count; the scan consumes at
least one character per step, so `fuel = text.length` never exhausts
(structural recursion on the fuel keeps the definition kernel-computable). -/
def reCountF (pat : List Char) : Nat → List Char → Nat
  | _, [] => if reMatchAt pat [] then 1 else 0
  | 0, _ :: _ => 0
  | fuel + 1, c :: rest =>
    if reMatchAt pat (c :: rest) then 1 + reCountF pat fuel (rest.drop (pat.length - 1))
    else reCountF pat fuel rest

/-- Number of matches of `str.match(new RegExp(pat, 'g'))`: leftmost,
non-overlapping scan. -/
def reCount (pat text : List Char) : Nat :=
  reCountF pat text.length text

/-- Literal-substring match anchored at the start of `text` (String.includes). -/
def litMatchAt : List Char → List Char → Bool
  | [], _ => true
  | _ :: _, [] => false
  | p :: ps, c :: cs => p == c && litMatchAt ps cs

/-- JS `hay.includes(needle)`. -/
def litOccursAux (pat : List Char) : List Char → Bool
  | [] => litMatchAt pat []
  | c :: rest => litMatchAt pat (c :: rest) || litOccursAux pat rest

/-- JS `s.includes(needle)` on strings. -/
def jsIncludes (s needle : String) : Bool :=
  litOccursAux needle.data s.data

/-- Fuel-indexed literal-occurrence scan, mirroring `reCountF`. -/
def litCountF (pat : List Char) : Nat → List Char → Nat
  | _, [] => if litMatchAt pat [] then 1 else 0
  | 0, _ :: _ => 0
  | fuel + 1, c :: rest =>
    if litMatchAt pat (c :: rest) then 1 + litCountF pat fuel (rest.drop (pat.length - 1))
    else litCountF pat fuel rest

/-- Literal, non-overlapping occurrence count of `pat` in the text; the
reading of "number of occurrences of the token" in the specification. -/
def litCount (pat text : List Char) : Nat :=
  litCountF pat text.length text

/-- MemexPro.calculateRelevance:
`score += (text.match(new RegExp(word, 'g')) || []).length * word.length`
summed over the query words. -/
def calculateRelevance (text : String) (queryWords : List String) : Nat :=
  queryWords.foldl (fun score w => score + reCount w.data text.data * w.length) 0

/-- Relevance as the specification words it: sum over query tokens of
(literal occurrences of the token in the matched text × token length). -/
def specRelevance (text : String) (tokens : List String) : Nat :=
  tokens.foldl (fun score w => score + litCount w.data text.data * w.length) 0

/-- MemexPro.search tokenization:
`query.toLowerCase().split(/\s+/).filter(w => w.length > 2)`. Splitting on
single whitespace characters instead of runs only introduces extra empty
segments, all of which the length filter removes. -/
def queryTokens (query : String) : List String :=
  (query.toLower.split (fun c => c.isWhitespace)).filter (fun w => 2 < w.length)

/-- One entry of `index.t`: topic name with its data `{p, sc}`. -/
structure TopicEntry where
  name : String
  projects : List String
  sessionCount : Nat
deriving Repr, DecidableEq

/-- One entry of `index.p`: project name with description `d` and topics `tp`
(the only fields search reads). -/
structure ProjectEntry where
  name : String
  d : Option String
  tp : Option (List String)
deriving Repr, DecidableEq

/-- The searched part of the index. -/
structure SearchIndex where
  t : List TopicEntry
  p : List ProjectEntry
deriving Repr, DecidableEq

/-- One search result; `kind` is the `type` field ("topic" or "project"),
`name` the topic or project name, `relevance` the computed score.
The other payload fields search copies (projects, session_count,
description, quick_ref) do not affect ranking and are not carried. -/
structure SearchResult where
  kind : String
  name : String
  relevance : Nat
deriving Repr, DecidableEq

/-- The `${projectName} ${project.d || ''} ${project.tp?.join(' ') || ''}`
searchable text, lowercased. -/
def searchableTextOf (pe : ProjectEntry) : String :=
  (pe.name ++ " " ++ pe.d.getD "" ++ " " ++ String.intercalate " " (pe.tp.getD [])).toLower

/-- MemexPro.search: topic results (topic name contains some query word),
then project results (searchable text contains some query word), each
scored by calculateRelevance, then
`results.sort((a, b) => (b.relevance || 0) - (a.relevance || 0))` — a
stable sort by relevance descending. -/
def search (idx : SearchIndex) (query : String) : List SearchResult :=
  let queryWords := queryTokens query
  let topicResults :=
    (idx.t.filter (fun te => queryWords.any (fun w => jsIncludes te.name w))).map
      (fun te => { kind := "topic", name := te.name,
                   relevance := calculateRelevance te.name queryWords : SearchResult })
  let projectResults :=
    (idx.p.filter (fun pe => queryWords.any (fun w => jsIncludes (searchableTextOf pe) w))).map
      (fun pe => { kind := "project", name := pe.name,
                   relevance := calculateRelevance (searchableTextOf pe) queryWords : SearchResult })
  (topicResults ++ projectResults).mergeSort (fun a b => b.relevance ≤ a.relevance)

/-! ## Concrete fixtures used by witnesses and counterexamples -/

/-- Stand-in MD5 digest oracle (16 bytes for every input). -/
def exD1 : String → List Nat :=
  fun _ => [1, 2, 3, 4, 5, 6, 7, 8, 9, 10, 11, 12, 13, 14, 15, 16]

/-- Stand-in SHA1 digest oracle (20 bytes for every input). -/
def exD2 : String → List Nat :=
  fun _ => [21, 22, 23, 24, 25, 26, 27, 28, 29, 30, 31, 32, 33, 34, 35, 36, 37, 38, 39, 40]

/-- A small well-formed BloomFilter state: 16 bits in 2 bytes, 3 hash functions. -/
def exBF : BloomFilter :=
  { expectedItems := 10, falsePositiveRate := 1 / 100, size := 16,
    numHashFunctions := 3, bits := [0, 0], itemCount := 0 }

/-- Serialized bloom-filter data whose parameters are mutually inconsistent
(size 16 needs 2 bytes, but only 1 byte of bits is stored) and far from the
sizes the constructor computes for n = 1000, p = 1/100. -/
def exBadJSON : BloomFilterJSON :=
  { version := "1.0.0", expectedItems := 1000, falsePositiveRate := 1 / 100,
    size := 16, numHashFunctions := 7, itemCount := 3, bits := [255], sizeBytes := 1 }

/-- Cache configuration for cache witnesses: ttl 1000ms, two entries max. -/
def exCfg3 : CacheConfig :=
  { ttl := 1000, version := "3.1.0", maxEntries := 2 }

/-- Cache configuration matching the default runtime version. -/
def exCfg : CacheConfig :=
  { ttl := 3600000, version := "3.1.0", maxEntries := 1000 }

/-- A full cache (two rows for `maxEntries = 2`); "b" is least recently used. -/
def exRows : List (CacheRow Nat) :=
  [{ key := "a", value := 1, version := "3.1.0", expiresAt := 500, createdAt := 0,
     updatedAt := 0, lastAccessedAt := 5 },
   { key := "b", value := 2, version := "3.1.0", expiresAt := 500, createdAt := 0,
     updatedAt := 0, lastAccessedAt := 3 }]

/-- A single unexpired row whose `expiresAt` is exactly 100. -/
def exRow : CacheRow Nat :=
  { key := "k", value := 7, version := "3.1.0", expiresAt := 100, createdAt := 0,
    updatedAt := 0, lastAccessedAt := 0 }

/-- An old manifest snapshot (paths a, b, c). -/
def exOldManifest : Manifest :=
  [("a.json", { hash := "h1", size := 10, mtime := 100 }),
   ("b.json", { hash := "h2", size := 20, mtime := 200 }),
   ("c.json", { hash := "h3", size := 30, mtime := 300 })]

/-- A new manifest snapshot: a's hash changed, b unchanged, c deleted, d added. -/
def exNewManifest : Manifest :=
  [("a.json", { hash := "h1x", size := 10, mtime := 100 }),
   ("b.json", { hash := "h2", size := 20, mtime := 200 }),
   ("d.json", { hash := "h4", size := 40, mtime := 400 })]

/-- A session record that collides with the lazy-loading metadata key. -/
def exBadSession : RecordJ :=
  [("_lazy_loaded", JVal.jsbool false), ("id", JVal.str "s1")]

/-- A plain session record. -/
def exS1 : RecordJ :=
  [("id", JVal.str "s1"), ("summary", JVal.str "hello")]

/-- A sessions-index object holding one session. -/
def exIdx : RecordJ :=
  [("project", JVal.str "P"), ("sessions", JVal.arr [JVal.obj exS1])]

/-! ## Claim C1: helper lemmas for the bloom filter -/

theorem map_mod_eq_self : ∀ (l : List Nat), (∀ b ∈ l, b < 256) →
    l.map (fun b => b % 256) = l
  | [], _ => rfl
  | b :: t, hb => by
    rw [List.map_cons, Nat.mod_eq_of_lt (hb b (List.mem_cons_self b t)),
      map_mod_eq_self t (fun c hc => hb c (List.mem_cons_of_mem b hc))]

theorem testBloomBit_eq_testBit (bits : List Nat) (h : Nat) :
    testBloomBit bits h = (bits.getD (h / 8) 0).testBit (h % 8) := by
  unfold testBloomBit
  rw [Nat.one_shiftLeft, Nat.and_two_pow]
  cases hb : (bits.getD (h / 8) 0).testBit (h % 8) <;> simp [hb]

theorem getD_set (l : List Nat) (j v i : Nat) :
    (l.set j v).getD i 0 = if j = i ∧ j < l.length then v else l.getD i 0 := by
  rw [List.getD_eq_getElem?_getD, List.getElem?_set, List.getD_eq_getElem?_getD]
  by_cases h1 : j = i
  · subst h1
    by_cases h2 : j < l.length
    · simp [h2]
    · simp [h2, List.getElem?_eq_none (Nat.le_of_not_lt h2)]
  · simp [h1]

theorem testBloomBit_mono_set {bits : List Nat} {h h' : Nat}
    (hset : testBloomBit bits h = true) :
    testBloomBit (setBloomBit bits h') h = true := by
  rw [testBloomBit_eq_testBit] at hset ⊢
  unfold setBloomBit
  rw [getD_set]
  by_cases hc : h' / 8 = h / 8 ∧ h' / 8 < bits.length
  · rw [if_pos hc, Nat.one_shiftLeft, Nat.testBit_lor, hc.1, hset, Bool.true_or]
  · rw [if_neg hc]
    exact hset

theorem testBloomBit_setBloomBit_self {bits : List Nat} {h : Nat}
    (hb : h / 8 < bits.length) : testBloomBit (setBloomBit bits h) h = true := by
  rw [testBloomBit_eq_testBit]
  unfold setBloomBit
  rw [getD_set, if_pos ⟨rfl, hb⟩]
  simp [Nat.one_shiftLeft, Nat.testBit_lor, Nat.testBit_two_pow_self]

theorem length_setBloomBit (bits : List Nat) (h : Nat) :
    (setBloomBit bits h).length = bits.length := by
  simp [setBloomBit]

theorem length_foldl_setBloomBit (hs : List Nat) (bits : List Nat) :
    (hs.foldl setBloomBit bits).length = bits.length := by
  induction hs generalizing bits with
  | nil => rfl
  | cons a t ih => rw [List.foldl_cons, ih, length_setBloomBit]

theorem testBloomBit_mono_foldl {hs : List Nat} {bits : List Nat} {h : Nat}
    (hset : testBloomBit bits h = true) :
    testBloomBit (hs.foldl setBloomBit bits) h = true := by
  induction hs generalizing bits with
  | nil => exact hset
  | cons a t ih => exact ih (testBloomBit_mono_set hset)

theorem testBloomBit_foldl_of_mem {hs : List Nat} {bits : List Nat} {h : Nat}
    (hmem : h ∈ hs) (hb : h / 8 < bits.length) :
    testBloomBit (hs.foldl setBloomBit bits) h = true := by
  induction hs generalizing bits with
  | nil => cases hmem
  | cons a t ih =>
    rcases List.mem_cons.mp hmem with rfl | hmem'
    · rw [List.foldl_cons]
      exact testBloomBit_mono_foldl (testBloomBit_setBloomBit_self hb)
    · rw [List.foldl_cons]
      exact ih hmem' (by rw [length_setBloomBit]; exact hb)

theorem add_size (d1 d2 : String → List Nat) (bf : BloomFilter) (item : String) :
    (bf.add d1 d2 item).size = bf.size := rfl

theorem add_numHash (d1 d2 : String → List Nat) (bf : BloomFilter) (item : String) :
    (bf.add d1 d2 item).numHashFunctions = bf.numHashFunctions := rfl

theorem add_bits_length (d1 d2 : String → List Nat) (bf : BloomFilter) (item : String) :
    (bf.add d1 d2 item).bits.length = bf.bits.length :=
  length_foldl_setBloomBit _ _

theorem addAll_size (d1 d2 : String → List Nat) (items : List String) (bf : BloomFilter) :
    (addAll d1 d2 bf items).size = bf.size := by
  induction items generalizing bf with
  | nil => rfl
  | cons a t ih => rw [addAll, List.foldl_cons, ← addAll, ih, add_size]

theorem addAll_numHash (d1 d2 : String → List Nat) (items : List String) (bf : BloomFilter) :
    (addAll d1 d2 bf items).numHashFunctions = bf.numHashFunctions := by
  induction items generalizing bf with
  | nil => rfl
  | cons a t ih => rw [addAll, List.foldl_cons, ← addAll, ih, add_numHash]

theorem addAll_bits_length (d1 d2 : String → List Nat) (items : List String) (bf : BloomFilter) :
    (addAll d1 d2 bf items).bits.length = bf.bits.length := by
  induction items generalizing bf with
  | nil => rfl
  | cons a t ih => rw [addAll, List.foldl_cons, ← addAll, ih, add_bits_length]

theorem add_mono {d1 d2 : String → List Nat} {bf : BloomFilter} {item : String} {h : Nat}
    (hset : testBloomBit bf.bits h = true) :
    testBloomBit (bf.add d1 d2 item).bits h = true :=
  testBloomBit_mono_foldl hset

theorem addAll_mono {d1 d2 : String → List Nat} {items : List String} {bf : BloomFilter}
    {h : Nat} (hset : testBloomBit bf.bits h = true) :
    testBloomBit (addAll d1 d2 bf items).bits h = true := by
  induction items generalizing bf with
  | nil => exact hset
  | cons a t ih => exact ih (add_mono hset)

theorem bloomHashes_lt {d1 d2 : String → List Nat} {k size : Nat} {item : String}
    (hsize : 0 < size) : ∀ h ∈ bloomHashes d1 d2 k size item, h < size := by
  intro h hm
  rcases List.mem_map.mp hm with ⟨i, _, rfl⟩
  exact Nat.mod_lt _ hsize

theorem div8_lt {h size : Nat} (hh : h < size) : h / 8 < (size + 7) / 8 := by
  omega

/-- Claim C1: once an item `x` is added to a well-formed BloomFilter, every
subsequent `mightContain x` returns true, no matter which other items are
added before or after: `add` only sets bits and `add`/`mightContain` compute
the same case-folded hash positions for the same item. -/
theorem bloom_no_false_negatives (d1 d2 : String → List Nat) (bf : BloomFilter)
    (x : String) (pre post : List String)
    (hsize : 0 < bf.size) (hlen : bf.bits.length = (bf.size + 7) / 8) :
    BloomFilter.mightContain d1 d2
      (addAll d1 d2 (BloomFilter.add d1 d2 (addAll d1 d2 bf pre) x) post) x = true := by
  have h1s : (addAll d1 d2 bf pre).size = bf.size := addAll_size d1 d2 pre bf
  have h1k : (addAll d1 d2 bf pre).numHashFunctions = bf.numHashFunctions :=
    addAll_numHash d1 d2 pre bf
  have h1l : (addAll d1 d2 bf pre).bits.length = bf.bits.length :=
    addAll_bits_length d1 d2 pre bf
  rw [BloomFilter.mightContain, List.all_eq_true]
  rw [addAll_numHash, addAll_size, add_numHash, add_size, h1k, h1s]
  intro h hmem
  have hlt : h < bf.size := bloomHashes_lt hsize h hmem
  have hdiv : h / 8 < bf.bits.length := by
    rw [hlen]
    exact div8_lt hlt
  have hbits : (BloomFilter.add d1 d2 (addAll d1 d2 bf pre) x).bits =
      (bloomHashes d1 d2 (addAll d1 d2 bf pre).numHashFunctions
        (addAll d1 d2 bf pre).size x).foldl setBloomBit (addAll d1 d2 bf pre).bits := rfl
  have hset2 : testBloomBit (BloomFilter.add d1 d2 (addAll d1 d2 bf pre) x).bits h = true := by
    rw [hbits, h1k, h1s]
    exact testBloomBit_foldl_of_mem hmem (by rw [h1l]; exact hdiv)
  exact addAll_mono hset2

/-- Witness for C1 at a concrete filter, item and surrounding insertions. -/
theorem bloom_no_false_negatives_witness :
    0 < exBF.size ∧ exBF.bits.length = (exBF.size + 7) / 8 ∧
    BloomFilter.mightContain exD1 exD2
      (addAll exD1 exD2 (BloomFilter.add exD1 exD2 (addAll exD1 exD2 exBF ["docker"])
        "Alpha") ["memex", "gzip"]) "Alpha" = true :=
  ⟨by decide, by decide,
    bloom_no_false_negatives exD1 exD2 exBF "Alpha" ["docker"] ["memex", "gzip"]
      (by decide) (by decide)⟩

/-! ## Claim C8: bloom filter serialization -/

/-- Counterexample to C8 as stated: `fromJSON` on stored data whose parameters
are mismatched (bit-array size 16 requires 2 bytes, yet a single stored byte is
given, and the parameters disagree with anything the constructor would compute)
does not rebuild anything: it silently adopts the stored bits, size, hash count
and item count verbatim, yielding a filter that is not even well-formed. -/
theorem bloom_fromJSON_silent_reuse :
    (BloomFilter.fromJSON exBadJSON).bits = [255] ∧
    (BloomFilter.fromJSON exBadJSON).size = 16 ∧
    (BloomFilter.fromJSON exBadJSON).numHashFunctions = 7 ∧
    (BloomFilter.fromJSON exBadJSON).itemCount = 3 ∧
    ¬ (BloomFilter.fromJSON exBadJSON).wf := by
  refine ⟨rfl, rfl, rfl, rfl, ?_⟩
  intro hwf
  have : (1 : Nat) = 2 := hwf.2
  cases this

/-- Claim C8 (amended): `toJSON` persists all of (m, k, n, p, bits) — so a
byte-faithful serialize/deserialize round trip restores the filter exactly —
and `fromJSON` unconditionally adopts the stored size, hash count, item count
and bits, performing no parameter check and no rebuild on mismatch. -/
theorem bloom_serialization_no_rebuild :
    (∀ bf : BloomFilter, (∀ b ∈ bf.bits, b < 256) →
      BloomFilter.fromJSON bf.toJSON = bf) ∧
    (∀ j : BloomFilterJSON,
      (BloomFilter.fromJSON j).size = j.size ∧
      (BloomFilter.fromJSON j).numHashFunctions = j.numHashFunctions ∧
      (BloomFilter.fromJSON j).itemCount = j.itemCount ∧
      (BloomFilter.fromJSON j).bits = j.bits.map (fun b => b % 256)) := by
  constructor
  · intro bf hb
    cases bf with
    | mk e p s k bits n =>
      have hbits : bits.map (fun b => b % 256) = bits := map_mod_eq_self bits hb
      simp only [BloomFilter.fromJSON, BloomFilter.toJSON]
      rw [hbits]
  · intro j
    exact ⟨rfl, rfl, rfl, rfl⟩

/-- Witness for the amended C8 at a concrete filter with byte-valued bits. -/
theorem bloom_serialization_no_rebuild_witness :
    BloomFilter.fromJSON exBF.toJSON = exBF :=
  bloom_serialization_no_rebuild.1 exBF (by decide)

/-! ## PersistentCache: helper lemmas -/

theorem findRow_eq_none {β : Type} {rows : List (CacheRow β)} {key : String} :
    findRow rows key = none ↔ ∀ r ∈ rows, r.key ≠ key := by
  simp [findRow, List.find?_eq_none]

theorem findRow_some {β : Type} {rows : List (CacheRow β)} {key : String} {r0 : CacheRow β}
    (h : findRow rows key = some r0) : r0 ∈ rows ∧ r0.key = key := by
  unfold findRow at h
  exact ⟨List.mem_of_find?_eq_some h, by simpa using List.find?_some h⟩

theorem mem_deleteKey {β : Type} {rows : List (CacheRow β)} {key : String} {r : CacheRow β} :
    r ∈ deleteKey rows key ↔ r ∈ rows ∧ r.key ≠ key := by
  simp [deleteKey, List.mem_filter]

theorem findRow_deleteKey_self {β : Type} (rows : List (CacheRow β)) (key : String) :
    findRow (deleteKey rows key) key = none := by
  rw [findRow_eq_none]
  intro r hr
  exact (mem_deleteKey.mp hr).2

theorem deleteKey_eq_self {β : Type} {rows : List (CacheRow β)} {key : String}
    (h : ∀ r ∈ rows, r.key ≠ key) : deleteKey rows key = rows := by
  unfold deleteKey
  rw [List.filter_eq_self]
  intro r hr
  simpa using h r hr

theorem findRow_append_insert {β : Type} (rows : List (CacheRow β)) {key : String}
    {r : CacheRow β} (hk : r.key = key) :
    findRow (deleteKey rows key ++ [r]) key = some r := by
  unfold findRow
  rw [List.find?_append]
  have h1 : List.find? (fun x => x.key == key) (deleteKey rows key) = none :=
    findRow_deleteKey_self rows key
  rw [h1]
  simp [List.find?_cons, hk]

theorem lruVictim_go {β : Type} :
    ∀ (rows : List (CacheRow β)) (m : CacheRow β),
      ∃ v, rows.foldl lruStep (some m) = some v ∧ (v = m ∨ v ∈ rows) ∧
        v.lastAccessedAt ≤ m.lastAccessedAt ∧ ∀ r ∈ rows, v.lastAccessedAt ≤ r.lastAccessedAt
  | [], m => ⟨m, rfl, Or.inl rfl, le_refl _, by intro r hr; cases hr⟩
  | r :: t, m => by
    rw [List.foldl_cons]
    by_cases hlt : r.lastAccessedAt < m.lastAccessedAt
    · rw [show lruStep (some m) r = some r by simp [lruStep, hlt]]
      obtain ⟨v, hfold, hmem, hle, hall⟩ := lruVictim_go t r
      refine ⟨v, hfold, ?_, le_of_lt (lt_of_le_of_lt hle hlt), ?_⟩
      · rcases hmem with rfl | hm
        · exact Or.inr (List.mem_cons_self _ _)
        · exact Or.inr (List.mem_cons_of_mem _ hm)
      · intro x hx
        rcases List.mem_cons.mp hx with rfl | hxm
        · exact hle
        · exact hall x hxm
    · rw [show lruStep (some m) r = some m by simp [lruStep, hlt]]
      obtain ⟨v, hfold, hmem, hle, hall⟩ := lruVictim_go t m
      refine ⟨v, hfold, ?_, hle, ?_⟩
      · rcases hmem with rfl | hm
        · exact Or.inl rfl
        · exact Or.inr (List.mem_cons_of_mem _ hm)
      · intro x hx
        rcases List.mem_cons.mp hx with rfl | hxm
        · exact le_trans hle (le_of_not_lt hlt)
        · exact hall x hxm

theorem lruVictim_spec {β : Type} {rows : List (CacheRow β)} {v : CacheRow β}
    (hv : lruVictim rows = some v) :
    v ∈ rows ∧ ∀ r ∈ rows, v.lastAccessedAt ≤ r.lastAccessedAt := by
  cases rows with
  | nil => cases hv
  | cons r t =>
    unfold lruVictim at hv
    rw [List.foldl_cons, show lruStep (none : Option (CacheRow β)) r = some r from rfl] at hv
    obtain ⟨w, hfold, hmem, hle, hall⟩ := lruVictim_go t r
    rw [hfold] at hv
    cases hv
    constructor
    · rcases hmem with rfl | hm
      · exact List.mem_cons_self _ _
      · exact List.mem_cons_of_mem _ hm
    · intro x hx
      rcases List.mem_cons.mp hx with rfl | hxm
      · exact hle
      · exact hall x hxm

theorem lruVictim_isSome {β : Type} {rows : List (CacheRow β)} (h : rows ≠ []) :
    ∃ v, lruVictim rows = some v := by
  cases rows with
  | nil => exact absurd rfl h
  | cons r t =>
    unfold lruVictim
    rw [List.foldl_cons, show lruStep (none : Option (CacheRow β)) r = some r from rfl]
    obtain ⟨w, hfold, _⟩ := lruVictim_go t r
    exact ⟨w, hfold⟩

theorem deleteKey_eq_erase {β : Type} [DecidableEq β] :
    ∀ (rows : List (CacheRow β)) (victim : CacheRow β),
      (rows.map (fun r => r.key)).Nodup → victim ∈ rows →
      deleteKey rows victim.key = rows.erase victim
  | [], victim, _, hv => by cases hv
  | r :: t, victim, hnd, hv => by
    rw [List.map_cons, List.nodup_cons] at hnd
    obtain ⟨hnotin, hndt⟩ := hnd
    by_cases hk : r.key = victim.key
    · have hrv : victim = r := by
        rcases List.mem_cons.mp hv with rfl | hvt
        · rfl
        · exact absurd (List.mem_map.mpr ⟨victim, hvt, (hk.symm : victim.key = r.key)⟩) hnotin
      have ht : deleteKey t victim.key = t := by
        apply deleteKey_eq_self
        intro x hx hxk
        exact hnotin (List.mem_map.mpr ⟨x, hx, by rw [hxk, ← hk]⟩)
      unfold deleteKey at ht ⊢
      rw [List.filter_cons, List.erase_cons]
      have hbeq : (r == victim) = true := beq_iff_eq.mpr hrv.symm
      have hbne : (r.key != victim.key) = false := by simp [hk]
      rw [hbeq, hbne]
      simpa using ht
    · have hrv : r ≠ victim := fun e => hk (by rw [e])
      have hvt : victim ∈ t := by
        rcases List.mem_cons.mp hv with rfl | hvt
        · exact absurd rfl hrv
        · exact hvt
      have ih := deleteKey_eq_erase t victim hndt hvt
      unfold deleteKey at ih ⊢
      rw [List.filter_cons, List.erase_cons]
      have hbeq : (r == victim) = false := by simp [hrv]
      have hbne : (r.key != victim.key) = true := by simp [hk]
      rw [hbeq, hbne]
      simpa using ih

theorem findRow_touch {β : Type} {rows : List (CacheRow β)} {key : String} (now : Int)
    {row : CacheRow β} (h : findRow rows key = some row) :
    findRow (rows.map (fun r => if r.key == key then { r with lastAccessedAt := now } else r))
      key = some { row with lastAccessedAt := now } := by
  have hpf : ((fun r : CacheRow β => r.key == key) ∘ fun r =>
      if r.key == key then { r with lastAccessedAt := now } else r) =
      fun r : CacheRow β => r.key == key := by
    funext r
    by_cases hr : (r.key == key) = true
    · have he : r.key = key := by simpa using hr
      simp [he]
    · have he : ¬ r.key = key := by simpa using hr
      simp [he]
  unfold findRow at h ⊢
  have hb0 := List.find?_some h
  have hb : (row.key == key) = true := hb0
  rw [List.find?_map, hpf, h, Option.map_some']
  simp [hb]

/-- Claim C3: when the cache is at (or beyond) `maxEntries` and the key is new,
`set` deletes exactly one row — one with the minimal `lastAccessedAt` — and
appends the new entry; when the key already exists, `set` evicts nothing:
the row count is unchanged and every other row survives. -/
theorem cacheSet_lru_eviction {β V : Type} [DecidableEq β] (encode : V → β)
    (cfg : CacheConfig) (now : Int) (rows : List (CacheRow β)) (key : String) (v : V)
    (customTTL : Option Int) (hnodup : (rows.map (fun r => r.key)).Nodup) :
    (findRow rows key = none → cfg.maxEntries ≤ rows.length → rows ≠ [] →
      ∃ victim, victim ∈ rows ∧
        (∀ r ∈ rows, victim.lastAccessedAt ≤ r.lastAccessedAt) ∧
        cacheSet encode cfg now rows key v customTTL =
          rows.erase victim ++
            [{ key := key, value := encode v, version := cfg.version,
               expiresAt := now + resolveTTL cfg customTTL, createdAt := now,
               updatedAt := now, lastAccessedAt := now }]) ∧
    (∀ r0, findRow rows key = some r0 →
      (cacheSet encode cfg now rows key v customTTL).length = rows.length ∧
      ∀ r ∈ rows, r.key ≠ key → r ∈ cacheSet encode cfg now rows key v customTTL) := by
  constructor
  · intro hnew hcap hne
    obtain ⟨victim, hvic⟩ := lruVictim_isSome hne
    obtain ⟨hvmem, hvmin⟩ := lruVictim_spec hvic
    refine ⟨victim, hvmem, hvmin, ?_⟩
    unfold cacheSet
    rw [hnew, hvic]
    simp only [Option.isSome_none, Bool.false_eq_true, if_false, if_pos hcap]
    have h1 : deleteKey rows victim.key = rows.erase victim :=
      deleteKey_eq_erase rows victim hnodup hvmem
    have h2 : deleteKey (rows.erase victim) key = rows.erase victim := by
      apply deleteKey_eq_self
      intro r hr
      exact findRow_eq_none.mp hnew r (List.mem_of_mem_erase hr)
    rw [h1, h2]
  · intro r0 hr0
    have hm := findRow_some hr0
    unfold cacheSet
    rw [hr0]
    simp only [Option.isSome_some, if_true]
    constructor
    · rw [List.length_append]
      have hdel : deleteKey rows key = rows.erase r0 := by
        rw [← hm.2]
        exact deleteKey_eq_erase rows r0 hnodup hm.1
      rw [hdel, List.length_erase_of_mem hm.1]
      have hpos : 0 < rows.length := List.length_pos.mpr (List.ne_nil_of_mem hm.1)
      simp only [List.length_singleton]
      omega
    · intro r hr hk
      exact List.mem_append_left _ (mem_deleteKey.mpr ⟨hr, hk⟩)

/-- Witness for C3 at a full two-entry cache: inserting a new key evicts the
least-recently-accessed row. -/
theorem cacheSet_lru_eviction_witness :
    ∃ victim, victim ∈ exRows ∧
      (∀ r ∈ exRows, victim.lastAccessedAt ≤ r.lastAccessedAt) ∧
      cacheSet (fun n : Nat => n) exCfg3 7 exRows "c" 9 none =
        exRows.erase victim ++
          [{ key := "c", value := 9, version := exCfg3.version,
             expiresAt := 7 + resolveTTL exCfg3 none, createdAt := 7,
             updatedAt := 7, lastAccessedAt := 7 }] :=
  (cacheSet_lru_eviction (fun n : Nat => n) exCfg3 7 exRows "c" 9 none (by decide)).1
    (by decide) (by decide) (by decide)

/-- Claim C4: recency is advanced only by reads — a successful `get` rewrites
the entry's `lastAccessedAt` to now (leaving every other row untouched), a
`set` on an existing key carries the old row's `lastAccessedAt` into the new
row, and a `set` of a new key stamps `lastAccessedAt` with its insertion time. -/
theorem cache_recency_reads_only {β V : Type} (decode : β → Option V) (encode : V → β)
    (cfg : CacheConfig) (now : Int) (rows : List (CacheRow β)) (key : String) (v : V)
    (customTTL : Option Int) :
    (∀ val rows', cacheGet decode cfg now rows key = (some val, rows') →
      ∃ row, findRow rows key = some row ∧
        findRow rows' key = some { row with lastAccessedAt := now } ∧
        ∀ r ∈ rows, r.key ≠ key → r ∈ rows') ∧
    (∀ r0, findRow rows key = some r0 →
      findRow (cacheSet encode cfg now rows key v customTTL) key =
        some { key := key, value := encode v, version := cfg.version,
               expiresAt := now + resolveTTL cfg customTTL, createdAt := now,
               updatedAt := now, lastAccessedAt := r0.lastAccessedAt }) ∧
    (findRow rows key = none →
      findRow (cacheSet encode cfg now rows key v customTTL) key =
        some { key := key, value := encode v, version := cfg.version,
               expiresAt := now + resolveTTL cfg customTTL, createdAt := now,
               updatedAt := now, lastAccessedAt := now }) := by
  refine ⟨?_, ?_, ?_⟩
  · intro val rows' hget
    cases hrow : findRow rows key with
    | none =>
      rw [show cacheGet decode cfg now rows key = (none, rows) by
        unfold cacheGet; rw [hrow]] at hget
      cases hget
    | some row =>
      by_cases hexp : row.expiresAt < now
      · rw [show cacheGet decode cfg now rows key = (none, deleteKey rows key) by
          unfold cacheGet; rw [hrow]; simp [hexp]] at hget
        cases hget
      · by_cases hver : row.version = cfg.version
        · cases hdec : decode row.value with
          | none =>
            rw [show cacheGet decode cfg now rows key = (none, deleteKey rows key) by
              unfold cacheGet; rw [hrow]; simp [hexp, hver, hdec]] at hget
            cases hget
          | some w =>
            rw [show cacheGet decode cfg now rows key =
                (some w, rows.map (fun r =>
                  if r.key == key then { r with lastAccessedAt := now } else r)) by
              unfold cacheGet; rw [hrow]; simp [hexp, hver, hdec]] at hget
            have hsnd : rows.map (fun r =>
                if r.key == key then { r with lastAccessedAt := now } else r) = rows' :=
              congrArg Prod.snd hget
            refine ⟨row, rfl, ?_, ?_⟩
            · rw [← hsnd]
              exact findRow_touch now hrow
            · intro r hr hk
              rw [← hsnd]
              refine List.mem_map.mpr ⟨r, hr, ?_⟩
              simp [hk]
        · rw [show cacheGet decode cfg now rows key = (none, deleteKey rows key) by
            unfold cacheGet; rw [hrow]; simp [hexp, hver]] at hget
          cases hget
  · intro r0 hr0
    unfold cacheSet
    rw [hr0]
    exact findRow_append_insert _ rfl
  · intro hnone
    unfold cacheSet
    rw [hnone]
    exact findRow_append_insert _ rfl

/-- Witness for C4: updating the existing key "a" preserves its old
`lastAccessedAt` of 5 while refreshing the entry's timestamps. -/
theorem cache_recency_reads_only_witness :
    findRow (cacheSet (fun n : Nat => n) exCfg3 7 exRows "a" 9 none) "a" =
      some { key := "a", value := 9, version := exCfg3.version,
             expiresAt := 7 + resolveTTL exCfg3 none, createdAt := 7,
             updatedAt := 7, lastAccessedAt := 5 } :=
  (cache_recency_reads_only (fun n : Nat => some n) (fun n : Nat => n) exCfg3 7 exRows
    "a" 9 none).2.1
    { key := "a", value := 1, version := "3.1.0", expiresAt := 500, createdAt := 0,
      updatedAt := 0, lastAccessedAt := 5 } (by decide)

/-- Claim C5 (amended): `get` is absent exactly when the key has no row, the
row is strictly expired (`expiresAt < now`), the stored version differs, or the
value fails to decode; in each of those row-present miss cases the row is
deleted; on a hit the decoded value is returned. -/
theorem cacheGet_absent_characterization {β V : Type} (decode : β → Option V)
    (cfg : CacheConfig) (now : Int) (rows : List (CacheRow β)) (key : String) :
    ((cacheGet decode cfg now rows key).1 = none ↔
      ∀ row, findRow rows key = some row →
        row.expiresAt < now ∨ row.version ≠ cfg.version ∨ decode row.value = none) ∧
    (∀ row, findRow rows key = some row →
      row.expiresAt < now ∨ row.version ≠ cfg.version ∨ decode row.value = none →
      findRow (cacheGet decode cfg now rows key).2 key = none) ∧
    (∀ row val, findRow rows key = some row → ¬ row.expiresAt < now →
      row.version = cfg.version → decode row.value = some val →
      (cacheGet decode cfg now rows key).1 = some val) := by
  cases hrow : findRow rows key with
  | none =>
    refine ⟨?_, ?_, ?_⟩
    · constructor
      · intro _ row hr
        cases hr
      · intro _
        unfold cacheGet
        rw [hrow]
    · intro row hr
      cases hr
    · intro row val hr
      cases hr
  | some row =>
    by_cases hexp : row.expiresAt < now
    · have h1 : (cacheGet decode cfg now rows key).1 = none := by
        unfold cacheGet; rw [hrow]; simp [hexp]
      have h2 : (cacheGet decode cfg now rows key).2 = deleteKey rows key := by
        unfold cacheGet; rw [hrow]; simp [hexp]
      refine ⟨⟨fun _ row' hr' => ?_, fun _ => h1⟩, fun _ _ _ => ?_,
        fun row' val hr' hnexp _ _ => ?_⟩
      · cases hr'
        exact Or.inl hexp
      · rw [h2]
        exact findRow_deleteKey_self rows key
      · cases hr'
        exact absurd hexp hnexp
    · by_cases hver : row.version = cfg.version
      · cases hdec : decode row.value with
        | none =>
          have h1 : (cacheGet decode cfg now rows key).1 = none := by
            unfold cacheGet; rw [hrow]; simp [hexp, hver, hdec]
          have h2 : (cacheGet decode cfg now rows key).2 = deleteKey rows key := by
            unfold cacheGet; rw [hrow]; simp [hexp, hver, hdec]
          refine ⟨⟨fun _ row' hr' => ?_, fun _ => h1⟩, fun _ _ _ => ?_,
            fun row' val hr' _ _ hdec' => ?_⟩
          · cases hr'
            exact Or.inr (Or.inr hdec)
          · rw [h2]
            exact findRow_deleteKey_self rows key
          · cases hr'
            rw [hdec] at hdec'
            cases hdec'
        | some w =>
          have h1 : (cacheGet decode cfg now rows key).1 = some w := by
            unfold cacheGet; rw [hrow]; simp [hexp, hver, hdec]
          refine ⟨⟨fun hnone => ?_, fun hall => ?_⟩, fun row' hr' hmiss => ?_,
            fun row' val hr' _ _ hdec' => ?_⟩
          · rw [h1] at hnone
            cases hnone
          · rcases hall row rfl with hbad | hbad | hbad
            · exact absurd hbad hexp
            · exact absurd hver hbad
            · rw [hdec] at hbad
              cases hbad
          · cases hr'
            rcases hmiss with hbad | hbad | hbad
            · exact absurd hbad hexp
            · exact absurd hver hbad
            · rw [hdec] at hbad
              cases hbad
          · cases hr'
            rw [hdec] at hdec'
            cases hdec'
            exact h1
      · have h1 : (cacheGet decode cfg now rows key).1 = none := by
          unfold cacheGet; rw [hrow]; simp [hexp, hver]
        have h2 : (cacheGet decode cfg now rows key).2 = deleteKey rows key := by
          unfold cacheGet; rw [hrow]; simp [hexp, hver]
        refine ⟨⟨fun _ row' hr' => ?_, fun _ => h1⟩, fun _ _ _ => ?_,
          fun row' val hr' _ hver' _ => ?_⟩
        · cases hr'
          exact Or.inr (Or.inl hver)
        · rw [h2]
          exact findRow_deleteKey_self rows key
        · cases hr'
          exact absurd hver' hver

/-- Witness for the amended C5: a hit (unexpired, matching version, decodable)
returns the decoded value. -/
theorem cacheGet_absent_characterization_witness :
    (cacheGet (fun n : Nat => some n) exCfg 50 [exRow] "k").1 = some 7 :=
  (cacheGet_absent_characterization (fun n : Nat => some n) exCfg 50 [exRow] "k").2.2
    exRow 7 (by decide) (by decide) (by decide) (by decide)

/-- Counterexample to C5 as stated: at the boundary `now = expiresAt` the claim
says the entry is absent (`now ≥ expiresAt`), but `get` treats the row as live
(the code expires only when `expiresAt < now`) and returns the value. -/
theorem cacheGet_boundary_hit :
    (cacheGet (fun n : Nat => some n) exCfg 100 [exRow] "k").1 = some 7 ∧
    exRow.expiresAt ≤ (100 : Int) := by
  constructor
  · decide
  · decide

/-- Claim C10: a falsy `customTTL` (absent or 0) falls back to the instance
TTL, so with a positive instance TTL the stored row's `expiresAt` is
`now + ttl`, strictly in the future — `ttl = 0` cannot create a dead entry. -/
theorem cacheSet_zero_ttl_defaults {β V : Type} (encode : V → β) (cfg : CacheConfig)
    (now : Int) (rows : List (CacheRow β)) (key : String) (v : V) (customTTL : Option Int)
    (hfalsy : customTTL = none ∨ customTTL = some 0) (hpos : 0 < cfg.ttl) :
    ∃ row, findRow (cacheSet encode cfg now rows key v customTTL) key = some row ∧
      row.expiresAt = now + cfg.ttl ∧ now < row.expiresAt := by
  have httl : resolveTTL cfg customTTL = cfg.ttl := by
    rcases hfalsy with rfl | rfl
    · rfl
    · simp [resolveTTL]
  refine ⟨_, findRow_append_insert _ rfl, ?_, ?_⟩
  · show now + resolveTTL cfg customTTL = now + cfg.ttl
    rw [httl]
  · show now < now + resolveTTL cfg customTTL
    rw [httl]
    omega

/-- Witness for C10: `set` with `customTTL = 0` stores `expiresAt = now + ttl`. -/
theorem cacheSet_zero_ttl_defaults_witness :
    ∃ row, findRow (cacheSet (fun n : Nat => n) exCfg3 7 exRows "c" 9 (some 0)) "c" =
        some row ∧ row.expiresAt = 7 + exCfg3.ttl ∧ (7 : Int) < row.expiresAt :=
  cacheSet_zero_ttl_defaults (fun n : Nat => n) exCfg3 7 exRows "c" 9 (some 0)
    (Or.inr rfl) (by decide)

/-! ## ManifestManager.detectChanges: helper lemmas -/

theorem mlookup_of_mem {m : Manifest} {p : String} {fm : FileMeta}
    (hnod : (m.map Prod.fst).Nodup) (hmem : (p, fm) ∈ m) : mlookup m p = some fm := by
  induction m with
  | nil => cases hmem
  | cons e t ih =>
    rw [List.map_cons, List.nodup_cons] at hnod
    rcases List.mem_cons.mp hmem with rfl | hmt
    · unfold mlookup
      rw [List.find?_cons]
      simp
    · by_cases hk : e.1 = p
      · exact absurd (List.mem_map.mpr ⟨(p, fm), hmt, hk ▸ rfl⟩) hnod.1
      · unfold mlookup at ih ⊢
        rw [List.find?_cons]
        have hb : (e.1 == p) = false := by simp [hk]
        rw [hb]
        exact ih hnod.2 hmt

theorem mem_of_mlookup {m : Manifest} {p : String} {fm : FileMeta}
    (h : mlookup m p = some fm) : (p, fm) ∈ m := by
  unfold mlookup at h
  cases hf : m.find? (fun e => e.1 == p) with
  | none =>
    rw [hf] at h
    cases h
  | some e =>
    rw [hf] at h
    have hkey := List.find?_some hf
    have hmem := List.mem_of_find?_eq_some hf
    have h2 : e.2 = fm := by
      cases h
      rfl
    have h1 : e.1 = p := by simpa using hkey
    have : e = (p, fm) := Prod.ext h1 h2
    rw [← this]
    exact hmem

/-- Claim C6: against an existing old manifest, `changed` contains exactly the
paths present in both manifests whose hash or mtime differ, `added` exactly the
paths present only in the new manifest, `deleted` exactly the paths present only
in the old one; with no old manifest, an `is_first_run` sentinel with all three
lists empty. -/
theorem detectChanges_correct (old new : Manifest)
    (hnodOld : (old.map Prod.fst).Nodup) (hnodNew : (new.map Prod.fst).Nodup) :
    (∀ p : String,
      (p ∈ (detectChanges (some old) new).changed ↔
        ∃ mo mn, mlookup old p = some mo ∧ mlookup new p = some mn ∧
          (mo.hash ≠ mn.hash ∨ mo.mtime ≠ mn.mtime)) ∧
      (p ∈ (detectChanges (some old) new).added ↔
        (mlookup new p).isSome ∧ mlookup old p = none) ∧
      (p ∈ (detectChanges (some old) new).deleted ↔
        (mlookup old p).isSome ∧ mlookup new p = none)) ∧
    (detectChanges (some old) new).isFirstRun = false ∧
    (∀ m : Manifest, detectChanges none m =
      { changed := [], added := [], deleted := [], isFirstRun := true }) := by
  refine ⟨?_, rfl, fun m => rfl⟩
  intro p
  refine ⟨?_, ?_, ?_⟩
  · constructor
    · intro hp
      obtain ⟨e, hef, rfl⟩ := List.mem_map.mp hp
      obtain ⟨hen, hcond⟩ := List.mem_filter.mp hef
      cases ho : mlookup old e.1 with
      | none =>
        rw [ho] at hcond
        cases hcond
      | some mo =>
        rw [ho] at hcond
        refine ⟨mo, e.2, rfl, mlookup_of_mem hnodNew hen, ?_⟩
        rcases Bool.or_eq_true_iff.mp hcond with hne | hne
        · exact Or.inl (by simpa using hne)
        · exact Or.inr (by simpa using hne)
    · rintro ⟨mo, mn, ho, hn, hne⟩
      refine List.mem_map.mpr ⟨(p, mn), List.mem_filter.mpr ⟨mem_of_mlookup hn, ?_⟩, rfl⟩
      rw [ho]
      rcases hne with hne | hne
      · exact Bool.or_eq_true_iff.mpr (Or.inl (by simpa using hne))
      · exact Bool.or_eq_true_iff.mpr (Or.inr (by simpa using hne))
  · constructor
    · intro hp
      obtain ⟨e, hef, rfl⟩ := List.mem_map.mp hp
      obtain ⟨hen, hcond⟩ := List.mem_filter.mp hef
      refine ⟨?_, Option.isNone_iff_eq_none.mp hcond⟩
      rw [mlookup_of_mem hnodNew hen]
      rfl
    · rintro ⟨hsome, hnone⟩
      obtain ⟨mn, hmn⟩ := Option.isSome_iff_exists.mp hsome
      refine List.mem_map.mpr ⟨(p, mn), List.mem_filter.mpr ⟨mem_of_mlookup hmn, ?_⟩, rfl⟩
      simp [hnone]
  · constructor
    · intro hp
      obtain ⟨e, hef, rfl⟩ := List.mem_map.mp hp
      obtain ⟨hen, hcond⟩ := List.mem_filter.mp hef
      refine ⟨?_, Option.isNone_iff_eq_none.mp hcond⟩
      rw [mlookup_of_mem hnodOld hen]
      rfl
    · rintro ⟨hsome, hnone⟩
      obtain ⟨mo, hmo⟩ := Option.isSome_iff_exists.mp hsome
      refine List.mem_map.mpr ⟨(p, mo), List.mem_filter.mpr ⟨mem_of_mlookup hmo, ?_⟩, rfl⟩
      simp [hnone]

/-- Witness for C6 on two concrete manifests: a hash-changed path lands in
`changed`. -/
theorem detectChanges_correct_witness :
    "a.json" ∈ (detectChanges (some exOldManifest) exNewManifest).changed :=
  ((detectChanges_correct exOldManifest exNewManifest (by decide) (by decide)).1
    "a.json").1.mpr
    ⟨{ hash := "h1", size := 10, mtime := 100 }, { hash := "h1x", size := 10, mtime := 100 },
      by decide, by decide, Or.inl (by decide)⟩

/-! ## JS object algebra: helper lemmas for the tiered index -/

theorem rget_none_iff {r : RecordJ} {k : String} :
    rget r k = none ↔ ∀ e ∈ r, e.1 ≠ k := by
  simp [rget, List.find?_eq_none]

theorem rhas_false_iff {r : RecordJ} {k : String} :
    rhas r k = false ↔ ∀ e ∈ r, e.1 ≠ k := by
  simp [rhas, List.any_eq_false]

theorem rhas_of_rget_some {r : RecordJ} {k : String} {v : JVal}
    (h : rget r k = some v) : rhas r k = true := by
  unfold rget at h
  cases hf : r.find? (fun p => p.1 == k) with
  | none =>
    rw [hf] at h
    cases h
  | some e =>
    have hp := List.find?_some hf
    unfold rhas
    rw [List.any_eq_true]
    exact ⟨e, List.mem_of_find?_eq_some hf, hp⟩

theorem rset_of_rget_none {r : RecordJ} {k : String} (h : rget r k = none) (v : JVal) :
    rset r k v = r ++ [(k, v)] := by
  have hr : rhas r k = false := rhas_false_iff.mpr (rget_none_iff.mp h)
  unfold rset
  rw [hr]
  rfl

theorem rdel_of_rget_none {r : RecordJ} {k : String} (h : rget r k = none) :
    rdel r k = r := by
  unfold rdel
  rw [List.filter_eq_self]
  intro e he
  simpa using rget_none_iff.mp h e he

theorem rget_append (r s : RecordJ) (k : String) :
    rget (r ++ s) k = (rget r k).or (rget s k) := by
  unfold rget
  cases hf : r.find? (fun p => p.1 == k) <;>
    simp [List.find?_append, hf]

theorem map_entries_id {s : RecordJ} {k : String} {v : JVal}
    (hs : ∀ e ∈ s, e.1 ≠ k) :
    s.map (fun p => if p.1 == k then (k, v) else p) = s := by
  have : ∀ e ∈ s, (fun p : String × JVal => if p.1 == k then (k, v) else p) e = id e := by
    intro e he
    simp [hs e he]
  rw [List.map_congr_left this, List.map_id]

theorem keys_rset_of_rhas {r : RecordJ} {k : String} (h : rhas r k = true) (v : JVal) :
    (rset r k v).map Prod.fst = r.map Prod.fst := by
  unfold rset
  rw [if_pos h, List.map_map]
  apply List.map_congr_left
  intro e _
  by_cases he : e.1 = k
  · simp [he]
  · simp [he]

theorem rget_rset_self {k : String} (v : JVal) :
    ∀ (r : RecordJ), rhas r k = true → rget (rset r k v) k = some v
  | [], h => by simp [rhas] at h
  | e :: t, h => by
    unfold rset
    rw [if_pos h, List.map_cons]
    cases he : (e.1 == k) with
    | true =>
      unfold rget
      rw [List.find?_cons]
      simp [he]
    | false =>
      have ht : rhas t k = true := by
        unfold rhas at h ⊢
        rw [List.any_cons] at h
        simpa [he] using h
      have ih := rget_rset_self v t ht
      unfold rset at ih
      rw [if_pos ht] at ih
      unfold rget at ih ⊢
      rw [List.find?_cons]
      simp only [he, Bool.false_eq_true, if_false]
      simpa [he] using ih

theorem rset_rset (r : RecordJ) (k : String) (v w : JVal) :
    rset (rset r k v) k w = rset r k w := by
  cases hr : rhas r k with
  | true =>
    have hkeys := keys_rset_of_rhas hr v
    have hr2 : rhas (rset r k v) k = true := by
      unfold rhas at hr ⊢
      rw [List.any_eq_true] at hr ⊢
      obtain ⟨e, he, hk⟩ := hr
      have : e.1 ∈ (rset r k v).map Prod.fst := by
        rw [hkeys]
        exact List.mem_map.mpr ⟨e, he, rfl⟩
      obtain ⟨e', he', hk'⟩ := List.mem_map.mp this
      exact ⟨e', he', by rw [hk']; exact hk⟩
    unfold rset
    rw [if_pos hr, if_pos hr, if_pos (by unfold rset at hr2; rwa [if_pos hr] at hr2)]
    rw [List.map_map]
    apply List.map_congr_left
    intro e _
    by_cases he : e.1 = k
    · simp [he]
    · simp [he]
  | false =>
    have hnone : rget r k = none := by
      rw [rget_none_iff]
      exact rhas_false_iff.mp hr
    rw [rset_of_rget_none hnone v]
    have hr2 : rhas (r ++ [(k, v)]) k = true := by
      unfold rhas
      rw [List.any_append]
      simp
    unfold rset
    rw [if_pos hr2, hr, List.map_append]
    rw [map_entries_id (rhas_false_iff.mp hr)]
    simp

theorem rset_rget_eq {k : String} :
    ∀ {r : RecordJ} {v0 : JVal}, (r.map Prod.fst).Nodup → rget r k = some v0 →
      rset r k v0 = r
  | [], _, _, h => by cases h
  | e :: t, v0, hnod, h => by
    rw [List.map_cons, List.nodup_cons] at hnod
    cases he : (e.1 == k) with
    | true =>
      have hek : e.1 = k := by simpa using he
      have hv0 : e.2 = v0 := by
        unfold rget at h
        rw [List.find?_cons, he] at h
        simp only at h
        cases h
        rfl
      have hhead : rhas (e :: t) k = true := by
        unfold rhas
        rw [List.any_cons, he]
        rfl
      unfold rset
      rw [if_pos hhead, List.map_cons, he]
      simp only
      have htail : t.map (fun p => if p.1 == k then (k, v0) else p) = t := by
        apply map_entries_id
        intro x hx hxk
        exact hnod.1 (List.mem_map.mpr ⟨x, hx, by rw [hxk, ← hek]⟩)
      rw [htail, ← hek, ← hv0]
      simp
    | false =>
      have ht : rget t k = some v0 := by
        unfold rget at h ⊢
        rw [List.find?_cons, he] at h
        simpa using h
      have ihr := rset_rget_eq hnod.2 ht
      have hthas : rhas t k = true := rhas_of_rget_some ht
      have hhead : rhas (e :: t) k = true := by
        unfold rhas at hthas ⊢
        rw [List.any_cons, hthas]
        simp
      unfold rset at ihr ⊢
      rw [if_pos hthas] at ihr
      rw [if_pos hhead, List.map_cons, he]
      simp only [Bool.false_eq_true, if_false]
      rw [ihr]

theorem rset_append_left {r s : RecordJ} {k : String} (hr : rhas r k = true)
    (hs : ∀ e ∈ s, e.1 ≠ k) (v : JVal) :
    rset (r ++ s) k v = rset r k v ++ s := by
  have h1 : rhas (r ++ s) k = true := by
    unfold rhas at hr ⊢
    rw [List.any_append, hr]
    rfl
  unfold rset
  rw [if_pos h1, if_pos hr, List.map_append, map_entries_id hs]

theorem allObjs_map_obj : ∀ (ss : List RecordJ), allObjs (ss.map JVal.obj) = some ss
  | [] => rfl
  | o :: rest => by
    rw [List.map_cons]
    unfold allObjs
    rw [allObjs_map_obj rest]
    rfl

/-- Merge of one split record: stripping the three metadata keys from the
detail file restores the original session exactly, provided the session did
not itself use a reserved key. -/
theorem stripLazyMeta_detailOf {s : RecordJ} (isz fsz : Int)
    (h1 : rget s "_lazy_loaded" = none) (h2 : rget s "_index_size_bytes" = none)
    (h3 : rget s "_full_size_bytes" = none) :
    stripLazyMeta (detailOf s isz fsz) = s := by
  have e1 : detailOf s isz fsz =
      s ++ [("_lazy_loaded", JVal.jsbool true), ("_index_size_bytes", JVal.num isz),
            ("_full_size_bytes", JVal.num fsz)] := by
    have g2 : rget (s ++ [("_lazy_loaded", JVal.jsbool true)]) "_index_size_bytes" = none := by
      rw [rget_append, h2]
      rfl
    have g3 : rget ((s ++ [("_lazy_loaded", JVal.jsbool true)]) ++
        [("_index_size_bytes", JVal.num isz)]) "_full_size_bytes" = none := by
      rw [rget_append, rget_append, h3]
      rfl
    unfold detailOf
    rw [rset_of_rget_none h1, rset_of_rget_none g2, rset_of_rget_none g3]
    simp [List.append_assoc]
  rw [e1]
  unfold stripLazyMeta
  have d1 : rdel (s ++ [("_lazy_loaded", JVal.jsbool true), ("_index_size_bytes", JVal.num isz),
      ("_full_size_bytes", JVal.num fsz)]) "_lazy_loaded" =
      s ++ [("_index_size_bytes", JVal.num isz), ("_full_size_bytes", JVal.num fsz)] := by
    unfold rdel
    rw [List.filter_append]
    congr 1
    exact rdel_of_rget_none h1
  rw [d1]
  have d2 : rdel (s ++ [("_index_size_bytes", JVal.num isz),
      ("_full_size_bytes", JVal.num fsz)]) "_index_size_bytes" =
      s ++ [("_full_size_bytes", JVal.num fsz)] := by
    unfold rdel
    rw [List.filter_append]
    congr 1
    exact rdel_of_rget_none h2
  rw [d2]
  have d3 : rdel (s ++ [("_full_size_bytes", JVal.num fsz)]) "_full_size_bytes" = s ++ [] := by
    unfold rdel
    rw [List.filter_append]
    congr 1
    exact rdel_of_rget_none h3
  rw [d3, List.append_nil]

theorem storeWrite_fresh {acc : DetailStore} {k : String} (v : RecordJ)
    (h : ∀ e ∈ acc, e.1 ≠ k) : storeWrite acc k v = acc ++ [(k, v)] := by
  unfold storeWrite
  have hany : acc.any (fun p => p.1 == k) = false := by
    rw [List.any_eq_false]
    intro e he
    simpa using h e he
  rw [hany]
  simp

theorem foldl_storeWrite (f : RecordJ → String × RecordJ) :
    ∀ (ss : List RecordJ) (acc : DetailStore),
      (∀ s ∈ ss, ∀ e ∈ acc, e.1 ≠ (f s).1) →
      (ss.map (fun s => (f s).1)).Nodup →
      ss.foldl (fun st s => storeWrite st (f s).1 (f s).2) acc = acc ++ ss.map f
  | [], acc, _, _ => by simp
  | s :: t, acc, hacc, hnod => by
    rw [List.map_cons, List.nodup_cons] at hnod
    rw [List.foldl_cons, storeWrite_fresh (f s).2 (hacc s (List.mem_cons_self s t))]
    have hacc' : ∀ x ∈ t, ∀ e ∈ acc ++ [((f s).1, (f s).2)], e.1 ≠ (f x).1 := by
      intro x hx e he
      rcases List.mem_append.mp he with hl | hr
      · exact hacc x (List.mem_cons_of_mem s hx) e hl
      · rcases List.mem_singleton.mp hr with rfl
        intro hek
        apply hnod.1
        rw [show ((f s).1, (f s).2).1 = (f s).1 from rfl] at hek
        rw [hek]
        exact List.mem_map.mpr ⟨x, hx, rfl⟩
    rw [foldl_storeWrite f t (acc ++ [((f s).1, (f s).2)]) hacc' hnod.2]
    simp [List.append_assoc]

theorem storeRead_map (f : RecordJ → String × RecordJ) :
    ∀ {ss : List RecordJ} {s : RecordJ}, (ss.map (fun x => (f x).1)).Nodup → s ∈ ss →
      storeRead (ss.map f) (f s).1 = some (f s).2
  | [], s, _, hs => by cases hs
  | a :: t, s, hnod, hs => by
    rw [List.map_cons, List.nodup_cons] at hnod
    rw [List.map_cons]
    unfold storeRead
    rw [List.find?_cons]
    rcases List.mem_cons.mp hs with rfl | hst
    · simp
    · have hne : ((f a).1 == (f s).1) = false := by
        rw [beq_eq_false_iff_ne]
        intro he
        exact hnod.1 (he ▸ List.mem_map.mpr ⟨s, hst, rfl⟩)
      rw [hne]
      have hrec := storeRead_map f hnod.2 hst
      unfold storeRead at hrec
      simpa using hrec

theorem convertIndex_eval (isz fsz : RecordJ → Int) (idx : RecordJ)
    (sessions : List RecordJ)
    (hsx : rget idx "sessions" = some (JVal.arr (sessions.map JVal.obj)))
    (hne : sessions ≠ []) :
    convertIndex isz fsz idx = some
      { lightIndex := rset (rset (rset idx "sessions"
            (JVal.arr ((sessions.map lightSessionOf).map JVal.obj)))
          "_lazy_loading_enabled" (JVal.jsbool true))
          "_session_details_path" (JVal.str "sessions/{id}.json")
        detailFiles := sessions.foldl (fun st s => storeWrite st
          (jsTemplateStr (jsGetField s "id")) (detailOf s (isz s) (fsz s))) [] } := by
  have hemp : (sessions.map JVal.obj).isEmpty = false := by
    cases sessions with
    | nil => exact absurd rfl hne
    | cons a t => rfl
  unfold convertIndex
  rw [hsx]
  simp only [hemp, Bool.false_eq_true, if_false, allObjs_map_obj]

theorem revertIndex_eval (li : RecordJ) (store : DetailStore) (lights : List RecordJ)
    (htruthy : jsTruthy (jsGetField li "_lazy_loading_enabled") = true)
    (hsess : rget li "sessions" = some (JVal.arr (lights.map JVal.obj))) :
    revertIndex { lightIndex := li, detailFiles := store } =
      some (rdel (rdel (rset li "sessions" (JVal.arr ((lights.map (fun ls =>
          match storeRead store (jsTemplateStr (jsGetField ls "id")) with
          | some d => stripLazyMeta d
          | none => ls)).map JVal.obj)))
        "_lazy_loading_enabled") "_session_details_path") := by
  unfold revertIndex
  rw [if_pos htruthy]
  rw [hsess]
  simp only [allObjs_map_obj]

/-- Claim C2 (amended): splitting and merging are exact inverses for every
record that does not itself use one of the reserved metadata keys
(`_lazy_loaded`, `_index_size_bytes`, `_full_size_bytes`), and `revert`
rebuilds the original monolithic index exactly for an index with
duplicate-free keys, a non-empty object `sessions` array, ids whose
interpolations are pairwise distinct, and no reserved key collisions. -/
theorem lazy_roundtrip (isz fsz : RecordJ → Int) (idx : RecordJ)
    (sessions : List RecordJ)
    (hsx : rget idx "sessions" = some (JVal.arr (sessions.map JVal.obj)))
    (hne : sessions ≠ [])
    (hnodIdx : (idx.map Prod.fst).Nodup)
    (hm1 : rget idx "_lazy_loading_enabled" = none)
    (hm2 : rget idx "_session_details_path" = none)
    (hids : (sessions.map (fun s => jsTemplateStr (jsGetField s "id"))).Nodup)
    (hres : ∀ s ∈ sessions, rget s "_lazy_loaded" = none ∧
      rget s "_index_size_bytes" = none ∧ rget s "_full_size_bytes" = none) :
    (∀ s ∈ sessions, stripLazyMeta (detailOf s (isz s) (fsz s)) = s) ∧
    ∃ sp, convertIndex isz fsz idx = some sp ∧ revertIndex sp = some idx := by
  have hper : ∀ s ∈ sessions, stripLazyMeta (detailOf s (isz s) (fsz s)) = s := by
    intro s hs
    obtain ⟨a1, a2, a3⟩ := hres s hs
    exact stripLazyMeta_detailOf _ _ a1 a2 a3
  refine ⟨hper, ?_⟩
  have hstore : sessions.foldl (fun st s => storeWrite st (jsTemplateStr (jsGetField s "id"))
      (detailOf s (isz s) (fsz s))) ([] : DetailStore) =
      sessions.map (fun s => (jsTemplateStr (jsGetField s "id"),
        detailOf s (isz s) (fsz s))) := by
    have h0 := foldl_storeWrite (fun s => (jsTemplateStr (jsGetField s "id"),
        detailOf s (isz s) (fsz s))) sessions [] (by intro s _ e he; cases he) hids
    simpa using h0
  have hhas : rhas idx "sessions" = true := rhas_of_rget_some hsx
  have hAkeys : (rset idx "sessions"
      (JVal.arr ((sessions.map lightSessionOf).map JVal.obj))).map Prod.fst =
      idx.map Prod.fst := keys_rset_of_rhas hhas _
  have hAnone : ∀ k : String, rget idx k = none →
      rget (rset idx "sessions"
        (JVal.arr ((sessions.map lightSessionOf).map JVal.obj))) k = none := by
    intro k hk
    rw [rget_none_iff]
    intro e he
    have hmem : e.1 ∈ idx.map Prod.fst := hAkeys ▸ List.mem_map.mpr ⟨e, he, rfl⟩
    obtain ⟨e', he', hk'⟩ := List.mem_map.mp hmem
    rw [← hk']
    exact rget_none_iff.mp hk e' he'
  have hAm1 := hAnone "_lazy_loading_enabled" hm1
  have hAm2 := hAnone "_session_details_path" hm2
  have hC : rset (rset (rset idx "sessions"
        (JVal.arr ((sessions.map lightSessionOf).map JVal.obj)))
      "_lazy_loading_enabled" (JVal.jsbool true))
      "_session_details_path" (JVal.str "sessions/{id}.json") =
      rset idx "sessions" (JVal.arr ((sessions.map lightSessionOf).map JVal.obj)) ++
        [("_lazy_loading_enabled", JVal.jsbool true),
         ("_session_details_path", JVal.str "sessions/{id}.json")] := by
    have g2 : rget (rset idx "sessions"
        (JVal.arr ((sessions.map lightSessionOf).map JVal.obj)) ++
        [("_lazy_loading_enabled", JVal.jsbool true)]) "_session_details_path" = none := by
      rw [rget_append, hAm2]
      rfl
    rw [rset_of_rget_none hAm1, rset_of_rget_none g2]
    simp [List.append_assoc]
  refine ⟨_, convertIndex_eval isz fsz idx sessions hsx hne, ?_⟩
  rw [hC, hstore]
  have htruthy : jsTruthy (jsGetField (rset idx "sessions"
      (JVal.arr ((sessions.map lightSessionOf).map JVal.obj)) ++
      [("_lazy_loading_enabled", JVal.jsbool true),
       ("_session_details_path", JVal.str "sessions/{id}.json")])
      "_lazy_loading_enabled") = true := by
    unfold jsGetField
    rw [rget_append, hAm1]
    rfl
  have hsA : rget (rset idx "sessions"
      (JVal.arr ((sessions.map lightSessionOf).map JVal.obj))) "sessions" =
      some (JVal.arr ((sessions.map lightSessionOf).map JVal.obj)) :=
    rget_rset_self _ idx hhas
  have hsC : rget (rset idx "sessions"
      (JVal.arr ((sessions.map lightSessionOf).map JVal.obj)) ++
      [("_lazy_loading_enabled", JVal.jsbool true),
       ("_session_details_path", JVal.str "sessions/{id}.json")]) "sessions" =
      some (JVal.arr ((sessions.map lightSessionOf).map JVal.obj)) := by
    rw [rget_append, hsA]
    rfl
  rw [revertIndex_eval _ _ (sessions.map lightSessionOf) htruthy hsC]
  have hfulls : (sessions.map lightSessionOf).map (fun ls =>
      match storeRead (sessions.map (fun s => (jsTemplateStr (jsGetField s "id"),
          detailOf s (isz s) (fsz s)))) (jsTemplateStr (jsGetField ls "id")) with
      | some d => stripLazyMeta d
      | none => ls) = sessions := by
    rw [List.map_map]
    have hcg : ∀ s ∈ sessions, ((fun ls =>
        match storeRead (sessions.map (fun s => (jsTemplateStr (jsGetField s "id"),
            detailOf s (isz s) (fsz s)))) (jsTemplateStr (jsGetField ls "id")) with
        | some d => stripLazyMeta d
        | none => ls) ∘ lightSessionOf) s = id s := by
      intro s hs
      have hid : jsGetField (lightSessionOf s) "id" = jsGetField s "id" := rfl
      have hsr : storeRead (sessions.map (fun s => (jsTemplateStr (jsGetField s "id"),
          detailOf s (isz s) (fsz s)))) (jsTemplateStr (jsGetField s "id")) =
          some (detailOf s (isz s) (fsz s)) :=
        storeRead_map (fun s => (jsTemplateStr (jsGetField s "id"),
          detailOf s (isz s) (fsz s))) hids hs
      simp only [Function.comp, hid, hsr, id]
      exact hper s hs
    rw [List.map_congr_left hcg, List.map_id]
  rw [hfulls]
  have hD : rset (rset idx "sessions"
      (JVal.arr ((sessions.map lightSessionOf).map JVal.obj)) ++
      [("_lazy_loading_enabled", JVal.jsbool true),
       ("_session_details_path", JVal.str "sessions/{id}.json")]) "sessions"
      (JVal.arr (sessions.map JVal.obj)) =
      idx ++ [("_lazy_loading_enabled", JVal.jsbool true),
              ("_session_details_path", JVal.str "sessions/{id}.json")] := by
    have hhasA : rhas (rset idx "sessions"
        (JVal.arr ((sessions.map lightSessionOf).map JVal.obj))) "sessions" =
        true := rhas_of_rget_some hsA
    have hs2 : ∀ e ∈ [(("_lazy_loading_enabled" : String), JVal.jsbool true),
        (("_session_details_path" : String), JVal.str "sessions/{id}.json")],
        e.1 ≠ "sessions" := by
      intro e he
      rcases List.mem_cons.mp he with rfl | he2
      · exact (by decide : ("_lazy_loading_enabled" : String) ≠ "sessions")
      · rcases List.mem_singleton.mp he2 with rfl
        exact (by decide : ("_session_details_path" : String) ≠ "sessions")
    rw [rset_append_left hhasA hs2, rset_rset, rset_rget_eq hnodIdx hsx]
  rw [hD]
  have hd1 : rdel (idx ++ [("_lazy_loading_enabled", JVal.jsbool true),
      ("_session_details_path", JVal.str "sessions/{id}.json")])
      "_lazy_loading_enabled" =
      idx ++ [("_session_details_path", JVal.str "sessions/{id}.json")] := by
    unfold rdel
    rw [List.filter_append]
    congr 1
    exact rdel_of_rget_none hm1
  have hd2 : rdel (idx ++ [("_session_details_path", JVal.str "sessions/{id}.json")])
      "_session_details_path" = idx ++ [] := by
    unfold rdel
    rw [List.filter_append]
    congr 1
    exact rdel_of_rget_none hm2
  rw [hd1, hd2, List.append_nil]

/-- Counterexample to C2 as stated: a record carrying its own `_lazy_loaded`
field is not reconstructed — the revert step deletes that field. -/
theorem lazy_roundtrip_metadata_collision :
    rget (stripLazyMeta (detailOf exBadSession 0 0)) "_lazy_loaded" = none ∧
    rget exBadSession "_lazy_loaded" = some (JVal.jsbool false) ∧
    stripLazyMeta (detailOf exBadSession 0 0) ≠ exBadSession := by
  refine ⟨rfl, rfl, ?_⟩
  intro h
  have h2 : rget (stripLazyMeta (detailOf exBadSession 0 0)) "_lazy_loaded" =
      rget exBadSession "_lazy_loaded" := by rw [h]
  rw [show rget (stripLazyMeta (detailOf exBadSession 0 0)) "_lazy_loaded" = none from rfl,
    show rget exBadSession "_lazy_loaded" = some (JVal.jsbool false) from rfl] at h2
  cases h2

/-- Witness for the amended C2 on a one-session index. -/
theorem lazy_roundtrip_witness :
    ∃ sp, convertIndex (fun _ => 0) (fun _ => 0) exIdx = some sp ∧
      revertIndex sp = some exIdx :=
  (lazy_roundtrip (fun _ => 0) (fun _ => 0) exIdx [exS1] rfl
    (List.cons_ne_nil _ _) (by decide) rfl rfl (by decide)
    (by
      intro s hs
      rw [List.mem_singleton] at hs
      subst hs
      exact ⟨rfl, rfl, rfl⟩)).2

/-- Claim C7 (amended): `loadIndex` tries cached blob, MessagePack, gzip and
plain JSON in strict priority order, returning the first representation that
exists and decodes, falling through when a higher-priority representation is
absent or fails to decode, and it signals not-found only when the cache
misses, MessagePack and gzip are absent or undecodable, and no JSON file
exists. `loadSessionDetails`, by contrast, falls back to JSON only when the
MessagePack file is absent: an existing MessagePack file that fails to decode
aborts the lookup with a thrown decode error. -/
theorem loadIndex_priority_chain {β V MB GB JB : Type} (decode : β → Option V)
    (encode : V → β) (cfg : CacheConfig) (now : Int) (rows : List (CacheRow β))
    (msgpackFile : Option MB) (gzFile : Option GB) (jsonFile : Option JB)
    (msgpackDec : MB → Option V) (gunzipJsonDec : GB → Option V)
    (jsonParse : JB → Option V) :
    (∀ v rows', cacheGet decode cfg now rows "index" = (some v, rows') →
      loadIndex decode encode cfg now rows msgpackFile gzFile jsonFile msgpackDec
        gunzipJsonDec jsonParse = .ok (v, .cache, rows')) ∧
    (∀ rows' b v, cacheGet decode cfg now rows "index" = (none, rows') →
      msgpackFile = some b → msgpackDec b = some v →
      loadIndex decode encode cfg now rows msgpackFile gzFile jsonFile msgpackDec
        gunzipJsonDec jsonParse =
        .ok (v, .msgpack, cacheSet encode cfg now rows' "index" v none)) ∧
    (∀ rows' b v, cacheGet decode cfg now rows "index" = (none, rows') →
      (∀ mb, msgpackFile = some mb → msgpackDec mb = none) →
      gzFile = some b → gunzipJsonDec b = some v →
      loadIndex decode encode cfg now rows msgpackFile gzFile jsonFile msgpackDec
        gunzipJsonDec jsonParse =
        .ok (v, .gzip, cacheSet encode cfg now rows' "index" v none)) ∧
    (∀ rows' b v, cacheGet decode cfg now rows "index" = (none, rows') →
      (∀ mb, msgpackFile = some mb → msgpackDec mb = none) →
      (∀ gb, gzFile = some gb → gunzipJsonDec gb = none) →
      jsonFile = some b → jsonParse b = some v →
      loadIndex decode encode cfg now rows msgpackFile gzFile jsonFile msgpackDec
        gunzipJsonDec jsonParse =
        .ok (v, .json, cacheSet encode cfg now rows' "index" v none)) ∧
    (loadIndex decode encode cfg now rows msgpackFile gzFile jsonFile msgpackDec
        gunzipJsonDec jsonParse = .error .notFound →
      (cacheGet decode cfg now rows "index").1 = none ∧
      (∀ mb, msgpackFile = some mb → msgpackDec mb = none) ∧
      (∀ gb, gzFile = some gb → gunzipJsonDec gb = none) ∧
      jsonFile = none) ∧
    (∀ mb, msgpackFile = some mb → msgpackDec mb = none →
      loadSessionDetails msgpackFile jsonFile msgpackDec jsonParse =
        .error .decodeThrow) ∧
    (∀ jb v, msgpackFile = none → jsonFile = some jb → jsonParse jb = some v →
      loadSessionDetails msgpackFile jsonFile msgpackDec jsonParse = .ok (some v)) := by
  refine ⟨?_, ?_, ?_, ?_, ?_, ?_, ?_⟩
  · intro v rows' hget
    unfold loadIndex
    rw [hget]
  · intro rows' b v hget hmb hdec
    unfold loadIndex
    rw [hget, hmb]
    simp [hdec]
  · intro rows' b v hget hmnone hgz hdec
    unfold loadIndex
    rw [hget]
    cases hmb : msgpackFile with
    | none => simp [hgz, hdec]
    | some mb => simp [hmnone mb hmb, hgz, hdec]
  · intro rows' b v hget hmnone hgnone hjs hdec
    unfold loadIndex
    rw [hget]
    cases hmb : msgpackFile with
    | none =>
      cases hgb : gzFile with
      | none => simp [hjs, hdec]
      | some gb => simp [hgnone gb hgb, hjs, hdec]
    | some mb =>
      cases hgb : gzFile with
      | none => simp [hmnone mb hmb, hjs, hdec]
      | some gb => simp [hmnone mb hmb, hgnone gb hgb, hjs, hdec]
  · intro herr
    cases hc : cacheGet decode cfg now rows "index" with
    | mk o rows' =>
      unfold loadIndex at herr
      rw [hc] at herr
      cases o with
      | some v => simp at herr
      | none =>
        cases hmb : msgpackFile with
        | some mb =>
          rw [hmb] at herr
          cases hmd : msgpackDec mb with
          | some v => simp [hmd] at herr
          | none =>
            cases hgb : gzFile with
            | some gb =>
              rw [hgb] at herr
              cases hgd : gunzipJsonDec gb with
              | some v => simp [hmd, hgd] at herr
              | none =>
                cases hjb : jsonFile with
                | some jb =>
                  rw [hjb] at herr
                  cases hjd : jsonParse jb with
                  | some v => simp [hmd, hgd, hjd] at herr
                  | none => simp [hmd, hgd, hjd] at herr
                | none =>
                  refine ⟨rfl, ?_, ?_, rfl⟩
                  · intro mb' hmb'
                    cases hmb'
                    exact hmd
                  · intro gb' hgb'
                    cases hgb'
                    exact hgd
            | none =>
              rw [hgb] at herr
              cases hjb : jsonFile with
              | some jb =>
                rw [hjb] at herr
                cases hjd : jsonParse jb with
                | some v => simp [hmd, hjd] at herr
                | none => simp [hmd, hjd] at herr
              | none =>
                refine ⟨rfl, ?_, ?_, rfl⟩
                · intro mb' hmb'
                  cases hmb'
                  exact hmd
                · intro gb' hgb'
                  cases hgb'
        | none =>
          rw [hmb] at herr
          cases hgb : gzFile with
          | some gb =>
            rw [hgb] at herr
            cases hgd : gunzipJsonDec gb with
            | some v => simp [hgd] at herr
            | none =>
              cases hjb : jsonFile with
              | some jb =>
                rw [hjb] at herr
                cases hjd : jsonParse jb with
                | some v => simp [hgd, hjd] at herr
                | none => simp [hgd, hjd] at herr
              | none =>
                refine ⟨rfl, ?_, ?_, rfl⟩
                · intro mb' hmb'
                  cases hmb'
                · intro gb' hgb'
                  cases hgb'
                  exact hgd
          | none =>
            rw [hgb] at herr
            cases hjb : jsonFile with
            | some jb =>
              rw [hjb] at herr
              cases hjd : jsonParse jb with
              | some v => simp [hjd] at herr
              | none => simp [hjd] at herr
            | none =>
              refine ⟨rfl, ?_, ?_, rfl⟩
              · intro mb' hmb'
                cases hmb'
              · intro gb' hgb'
                cases hgb'
  · intro mb hmb hdec
    unfold loadSessionDetails
    rw [hmb]
    simp [hdec]
  · intro jb v hmb hjb hdec
    unfold loadSessionDetails
    rw [hmb, hjb]
    simp [hdec]

/-- Witness for the amended C7: a cache miss with a decodable MessagePack file
is served from MessagePack. -/
theorem loadIndex_priority_chain_witness :
    loadIndex (fun n : Nat => some n) (fun n : Nat => n) exCfg 50 ([] : List (CacheRow Nat))
      (some 5) (none : Option Nat) (none : Option Nat)
      (fun b : Nat => some (b + 1)) (fun _ : Nat => none) (fun _ : Nat => none) =
      .ok (6, .msgpack, cacheSet (fun n : Nat => n) exCfg 50 [] "index" 6 none) :=
  (loadIndex_priority_chain (fun n : Nat => some n) (fun n : Nat => n) exCfg 50 []
    (some 5) (none : Option Nat) (none : Option Nat)
    (fun b : Nat => some (b + 1)) (fun _ : Nat => none) (fun _ : Nat => none)).2.1
    [] 5 6 (by decide) rfl rfl

/-- Counterexample to C7 as stated: `loadSessionDetails` with an existing but
undecodable MessagePack file and a perfectly valid JSON fallback aborts with a
thrown decode error instead of falling through to the JSON representation. -/
theorem loadSessionDetails_aborts_on_decode_failure :
    loadSessionDetails (some 0) (some 7) (fun _ : Nat => (none : Option Nat))
      (fun b : Nat => some b) = .error .decodeThrow ∧
    loadSessionDetails (none : Option Nat) (some 7) (fun _ : Nat => (none : Option Nat))
      (fun b : Nat => some b) = .ok (some 7) ∧
    Except.error (ε := LoadErr) LoadErr.decodeThrow ≠ .ok (some 7) := by
  refine ⟨rfl, rfl, ?_⟩
  intro h
  cases h

/-! ## MemexPro.search: helper lemmas -/

theorem reMatchAt_eq_litMatchAt : ∀ (pat text : List Char), ('.' : Char) ∉ pat →
    reMatchAt pat text = litMatchAt pat text
  | [], _, _ => rfl
  | _ :: _, [], _ => rfl
  | p :: ps, c :: cs, hp => by
    unfold reMatchAt litMatchAt
    have hpd : (p == '.') = false := by
      rw [beq_eq_false_iff_ne]
      intro he
      apply hp
      rw [← he]
      exact List.mem_cons_self p ps
    rw [hpd]
    simp only [Bool.false_or]
    rw [reMatchAt_eq_litMatchAt ps cs (fun hm => hp (List.mem_cons_of_mem p hm))]

theorem reCountF_eq_litCountF (pat : List Char) (hp : ('.' : Char) ∉ pat) :
    ∀ (fuel : Nat) (text : List Char), reCountF pat fuel text = litCountF pat fuel text
  | fuel, [] => by
    cases fuel with
    | zero =>
      show (if reMatchAt pat [] = true then 1 else 0) =
        (if litMatchAt pat [] = true then 1 else 0)
      rw [reMatchAt_eq_litMatchAt pat [] hp]
    | succ n =>
      show (if reMatchAt pat [] = true then 1 else 0) =
        (if litMatchAt pat [] = true then 1 else 0)
      rw [reMatchAt_eq_litMatchAt pat [] hp]
  | 0, _ :: _ => rfl
  | fuel + 1, c :: rest => by
    show (if reMatchAt pat (c :: rest) = true then
        1 + reCountF pat fuel (rest.drop (pat.length - 1)) else reCountF pat fuel rest) =
      (if litMatchAt pat (c :: rest) = true then
        1 + litCountF pat fuel (rest.drop (pat.length - 1)) else litCountF pat fuel rest)
    rw [reMatchAt_eq_litMatchAt pat (c :: rest) hp]
    by_cases hm : litMatchAt pat (c :: rest) = true
    · rw [if_pos hm, if_pos hm,
        reCountF_eq_litCountF pat hp fuel (rest.drop (pat.length - 1))]
    · rw [if_neg hm, if_neg hm, reCountF_eq_litCountF pat hp fuel rest]

theorem foldl_relevance_congr (text : String) :
    ∀ (ts : List String), (∀ w ∈ ts, ('.' : Char) ∉ w.data) → ∀ (init : Nat),
      ts.foldl (fun score w => score + reCount w.data text.data * w.length) init =
      ts.foldl (fun score w => score + litCount w.data text.data * w.length) init
  | [], _, _ => rfl
  | w :: t, hts, init => by
    rw [List.foldl_cons, List.foldl_cons]
    rw [show reCount w.data text.data = litCount w.data text.data from
      reCountF_eq_litCountF w.data (hts w (List.mem_cons_self w t)) text.data.length
        text.data]
    exact foldl_relevance_congr text t (fun x hx => hts x (List.mem_cons_of_mem w hx)) _

theorem mergeSort_desc_sorted (l : List SearchResult) :
    (l.mergeSort (fun a b => b.relevance ≤ a.relevance)).Pairwise
      (fun a b => b.relevance ≤ a.relevance) := by
  refine List.Pairwise.imp ?_ (List.sorted_mergeSort ?_ ?_ l)
  · intro a b h
    exact of_decide_eq_true h
  · intro a b c hab hbc
    exact decide_eq_true (le_trans (of_decide_eq_true hbc) (of_decide_eq_true hab))
  · intro a b
    rcases Nat.le_total b.relevance a.relevance with h | h <;> simp [h]

/-- Claim C9 (amended): `search` returns results sorted by relevance in
descending order; every result's relevance is `calculateRelevance` of the
matched searchable text against the query tokens of length ≥ 3; and for
tokens free of regex metacharacters, `calculateRelevance` equals the
specification's score, the sum over tokens of (literal non-overlapping
occurrences × token length). -/
theorem search_relevance_ranked (idx : SearchIndex) (query : String) :
    (search idx query).Pairwise (fun a b => b.relevance ≤ a.relevance) ∧
    (∀ r ∈ search idx query,
      (r.kind = "topic" ∧ ∃ te ∈ idx.t, r.name = te.name ∧
        r.relevance = calculateRelevance te.name (queryTokens query)) ∨
      (r.kind = "project" ∧ ∃ pe ∈ idx.p, r.name = pe.name ∧
        r.relevance = calculateRelevance (searchableTextOf pe) (queryTokens query))) ∧
    (∀ (text : String) (tokens : List String), (∀ w ∈ tokens, ('.' : Char) ∉ w.data) →
      calculateRelevance text tokens = specRelevance text tokens) := by
  refine ⟨mergeSort_desc_sorted _, ?_, ?_⟩
  · intro r hr
    have hr' : r ∈ ((idx.t.filter (fun te => (queryTokens query).any
        (fun w => jsIncludes te.name w))).map (fun te =>
          { kind := "topic", name := te.name,
            relevance := calculateRelevance te.name (queryTokens query) : SearchResult }) ++
        (idx.p.filter (fun pe => (queryTokens query).any
          (fun w => jsIncludes (searchableTextOf pe) w))).map (fun pe =>
          { kind := "project", name := pe.name,
            relevance := calculateRelevance (searchableTextOf pe) (queryTokens query) :
              SearchResult })) :=
      (List.mergeSort_perm _ _).mem_iff.mp hr
    rcases List.mem_append.mp hr' with h | h
    · obtain ⟨te, hte, rfl⟩ := List.mem_map.mp h
      exact Or.inl ⟨rfl, te, (List.mem_filter.mp hte).1, rfl, rfl⟩
    · obtain ⟨pe, hpe, rfl⟩ := List.mem_map.mp h
      exact Or.inr ⟨rfl, pe, (List.mem_filter.mp hpe).1, rfl, rfl⟩
  · intro text tokens hp
    exact foldl_relevance_congr text tokens hp 0

/-- Witness for the amended C9: on a metacharacter-free token the regex-based
score agrees with the specification's literal-occurrence score. -/
theorem search_relevance_ranked_witness :
    calculateRelevance "abcxyz" ["abc"] = specRelevance "abcxyz" ["abc"] :=
  (search_relevance_ranked { t := [], p := [] } "q").2.2 "abcxyz" ["abc"]
    (by
      intro w hw
      rw [List.mem_singleton] at hw
      subst hw
      decide)

/-- Counterexample to C9 as stated: the token "x.z" never occurs literally in
"abcxyz", so the claimed score is 3 (from "abc" alone), but the code uses the
token as a regular expression, "x.z" matches "xyz", and the computed score
is 6. -/
theorem calculateRelevance_regex_mismatch :
    calculateRelevance "abcxyz" ["abc", "x.z"] = 6 ∧
    specRelevance "abcxyz" ["abc", "x.z"] = 3 ∧
    calculateRelevance "abcxyz" ["abc", "x.z"] ≠
      specRelevance "abcxyz" ["abc", "x.z"] := by
  refine ⟨by decide, by decide, by decide⟩

end Memex
